import Mathlib

/-!
Verification of the Pomodoro timer's session/log/statistics core
(`utils/session_manager.py`, `utils/logger.py`, `utils/statistics.py`).

The Python code is shallowly embedded: sessions become a Lean structure,
the JSON-lines log file becomes a list of line strings, `datetime` values
become an explicit record printed/parsed by the same ISO-8601 grammar that
`datetime.isoformat` emits and `datetime.fromisoformat` accepts on those
outputs, and the `json` module's `dumps`/`loads` pair is modelled by an
executable serializer and recursive-descent parser restricted to the value
forms the program ever writes (flat objects whose values are strings,
integers, booleans or null), with `ensure_ascii` escaping including
UTF-16 surrogate pairs for astral code points.
-/

/-- Digit character for a decimal digit (0-9). -/
def digitChar : Nat → Char
  | 0 => '0' | 1 => '1' | 2 => '2' | 3 => '3' | 4 => '4'
  | 5 => '5' | 6 => '6' | 7 => '7' | 8 => '8' | _ => '9'

/-- Decimal value of a digit character. -/
def charDigit (c : Char) : Option Nat :=
  if '0' ≤ c ∧ c ≤ '9' then some (c.toNat - '0'.toNat) else none

/-- Lowercase hex digit character (as produced by `json.dumps` escapes). -/
def hexDigitChar : Nat → Char
  | 0 => '0' | 1 => '1' | 2 => '2' | 3 => '3' | 4 => '4'
  | 5 => '5' | 6 => '6' | 7 => '7' | 8 => '8' | 9 => '9'
  | 10 => 'a' | 11 => 'b' | 12 => 'c' | 13 => 'd' | 14 => 'e' | _ => 'f'

/-- Hex value of a digit character, upper or lower case. -/
def charHexDigit (c : Char) : Option Nat :=
  if '0' ≤ c ∧ c ≤ '9' then some (c.toNat - '0'.toNat)
  else if 'a' ≤ c ∧ c ≤ 'f' then some (c.toNat - 'a'.toNat + 10)
  else if 'A' ≤ c ∧ c ≤ 'F' then some (c.toNat - 'A'.toNat + 10)
  else none

/-- Fixed-width decimal rendering of `n` (most significant digit first),
as produced by zero-padded `strftime`/`isoformat` fields. -/
def fixedDec : Nat → Nat → List Char
  | 0, _ => []
  | w + 1, n => digitChar (n / 10 ^ w) :: fixedDec w (n % 10 ^ w)

/-- Fixed-width lowercase hex rendering of `n` (most significant digit first). -/
def fixedHex : Nat → Nat → List Char
  | 0, _ => []
  | w + 1, n => hexDigitChar (n / 16 ^ w) :: fixedHex w (n % 16 ^ w)

/-- Consume exactly `w` decimal digits, accumulating their value onto `acc`. -/
def parseFixedAux : Nat → Nat → List Char → Option (Nat × List Char)
  | 0, acc, cs => some (acc, cs)
  | w + 1, acc, c :: cs =>
    match charDigit c with
    | some d => parseFixedAux w (acc * 10 + d) cs
    | none => none
  | _ + 1, _, [] => none

/-- Consume exactly `w` decimal digits. -/
def parseFixedDec (w : Nat) (cs : List Char) : Option (Nat × List Char) :=
  parseFixedAux w 0 cs

theorem charDigit_digitChar (d : Nat) (h : d < 10) : charDigit (digitChar d) = some d := by
  interval_cases d <;> rfl

theorem charHexDigit_hexDigitChar (d : Nat) (h : d < 16) :
    charHexDigit (hexDigitChar d) = some d := by
  interval_cases d <;> rfl

theorem parseFixedAux_fixedDec (w : Nat) :
    ∀ n acc rest, n < 10 ^ w →
      parseFixedAux w acc (fixedDec w n ++ rest) = some (acc * 10 ^ w + n, rest) := by
  induction w with
  | zero =>
    intro n acc rest hn
    have : n = 0 := by omega
    subst this
    simp [fixedDec, parseFixedAux]
  | succ w ih =>
    intro n acc rest hn
    have hdiv : n / 10 ^ w < 10 := by
      have h1 : 10 ^ (w + 1) = 10 ^ w * 10 := by ring
      have h2 : 0 < 10 ^ w := Nat.pos_pow_of_pos w (by omega)
      rw [Nat.div_lt_iff_lt_mul h2]
      omega
    have hmod : n % 10 ^ w < 10 ^ w :=
      Nat.mod_lt _ (Nat.pos_pow_of_pos w (by omega))
    simp only [fixedDec, List.cons_append, parseFixedAux,
      charDigit_digitChar _ hdiv]
    show parseFixedAux w (acc * 10 + n / 10 ^ w) (fixedDec w (n % 10 ^ w) ++ rest)
      = some (acc * 10 ^ (w + 1) + n, rest)
    rw [ih (n % 10 ^ w) (acc * 10 + n / 10 ^ w) rest hmod]
    congr 2
    have : (acc * 10 + n / 10 ^ w) * 10 ^ w + n % 10 ^ w
        = acc * (10 ^ w * 10) + (10 ^ w * (n / 10 ^ w) + n % 10 ^ w) := by ring
    rw [this, Nat.div_add_mod]
    ring

theorem parseFixedDec_fixedDec (w n : Nat) (rest : List Char) (h : n < 10 ^ w) :
    parseFixedDec w (fixedDec w n ++ rest) = some (n, rest) := by
  unfold parseFixedDec
  rw [parseFixedAux_fixedDec w n 0 rest h]
  simp

/-- Value of four hex digit characters, as read by a `\uXXXX` escape. -/
def hex4 (a b c d : Char) : Option Nat :=
  match charHexDigit a, charHexDigit b, charHexDigit c, charHexDigit d with
  | some x, some y, some z, some t => some (x * 4096 + y * 256 + z * 16 + t)
  | _, _, _, _ => none

theorem fixedHex_four (n : Nat) :
    fixedHex 4 n = [hexDigitChar (n / 4096), hexDigitChar (n % 4096 / 256),
      hexDigitChar (n % 4096 % 256 / 16), hexDigitChar (n % 4096 % 256 % 16)] := by
  simp [fixedHex]

theorem hex4_fixedHex (n : Nat) (h : n < 65536) :
    hex4 (hexDigitChar (n / 4096)) (hexDigitChar (n % 4096 / 256))
      (hexDigitChar (n % 4096 % 256 / 16)) (hexDigitChar (n % 4096 % 256 % 16)) = some n := by
  have h1 : n / 4096 < 16 := by omega
  have h2 : n % 4096 / 256 < 16 := by omega
  have h3 : n % 4096 % 256 / 16 < 16 := by omega
  have h4 : n % 4096 % 256 % 16 < 16 := by omega
  simp only [hex4, charHexDigit_hexDigitChar _ h1, charHexDigit_hexDigitChar _ h2,
    charHexDigit_hexDigitChar _ h3, charHexDigit_hexDigitChar _ h4]
  congr 1
  omega

/-- Little-endian decimal digits, with explicit fuel (the value itself
bounds the digit count, keeping the definition structurally recursive
and hence computable by the kernel). -/
def natDigitsRevAux : Nat → Nat → List Nat
  | _, 0 => []
  | 0, _ + 1 => []
  | fuel + 1, n + 1 => (n + 1) % 10 :: natDigitsRevAux fuel ((n + 1) / 10)

/-- Little-endian decimal digits of `n` (empty for 0). -/
def natDigitsRev (n : Nat) : List Nat := natDigitsRevAux n n

theorem natDigitsRevAux_zero (f : Nat) : natDigitsRevAux f 0 = [] := by
  cases f <;> rfl

theorem natDigitsRevAux_congr (f1 : Nat) :
    ∀ f2 n, n ≤ f1 → n ≤ f2 → natDigitsRevAux f1 n = natDigitsRevAux f2 n := by
  induction f1 using Nat.strong_induction_on with
  | _ f1 ih =>
    intro f2 n h1 h2
    cases n with
    | zero => rw [natDigitsRevAux_zero, natDigitsRevAux_zero]
    | succ m =>
      cases f1 with
      | zero => omega
      | succ g1 =>
        cases f2 with
        | zero => omega
        | succ g2 =>
          rw [natDigitsRevAux, natDigitsRevAux]
          exact congrArg _ (ih g1 (by omega) g2 ((m + 1) / 10) (by omega) (by omega))

theorem natDigitsRev_eq (n : Nat) :
    natDigitsRev n = if n = 0 then [] else n % 10 :: natDigitsRev (n / 10) := by
  cases n with
  | zero => rfl
  | succ m =>
    rw [natDigitsRev, natDigitsRevAux]
    simp only [Nat.succ_ne_zero, if_false]
    rw [natDigitsRevAux_congr m ((m + 1) / 10) ((m + 1) / 10) (by omega) le_rfl]
    rfl

/-- Decimal rendering of a natural number, as Python's `str`/`json.dumps`. -/
def natChars (n : Nat) : List Char :=
  if n = 0 then ['0'] else (natDigitsRev n).reverse.map digitChar

/-- Decimal rendering of a Python integer. -/
def intChars (n : Int) : List Char :=
  if n < 0 then '-' :: natChars n.natAbs else natChars n.toNat

/-- Consume a maximal run of decimal digits, accumulating onto `acc`. -/
def parseNatAux : Nat → List Char → Nat × List Char
  | acc, c :: cs =>
    match charDigit c with
    | some d => parseNatAux (acc * 10 + d) cs
    | none => (acc, c :: cs)
  | acc, [] => (acc, [])

/-- Consume a nonempty run of decimal digits (JSON number grammar,
restricted to the integer literals the program serializes). -/
def parseNatChars : List Char → Option (Nat × List Char)
  | c :: cs =>
    match charDigit c with
    | some d => some (parseNatAux d cs)
    | none => none
  | [] => none

/-- The head of `cs` (if any) is not a decimal digit. -/
def headNotDigit : List Char → Prop
  | c :: _ => charDigit c = none
  | [] => True

theorem natDigitsRev_lt (n : Nat) : ∀ d ∈ natDigitsRev n, d < 10 := by
  induction n using Nat.strong_induction_on with
  | _ n ih =>
    intro d hd
    rw [natDigitsRev_eq] at hd
    by_cases h : n = 0
    · simp [h] at hd
    · simp only [h, if_false, List.mem_cons] at hd
      rcases hd with h1 | h1
      · omega
      · exact ih (n / 10) (Nat.div_lt_self (Nat.pos_of_ne_zero h) (by omega)) d h1

theorem parseNatAux_map_digits (ds : List Nat) (hd : ∀ d ∈ ds, d < 10) :
    ∀ acc rest, parseNatAux acc (ds.map digitChar ++ rest)
      = parseNatAux (ds.foldl (fun a d => a * 10 + d) acc) rest := by
  induction ds with
  | nil => intro acc rest; simp
  | cons d ds ih =>
    intro acc rest
    have hdlt : d < 10 := hd d (by simp)
    simp only [List.map_cons, List.cons_append, parseNatAux, charDigit_digitChar d hdlt,
      List.foldl_cons]
    exact ih (fun x hx => hd x (by simp [hx])) _ rest

theorem parseNatAux_stop (acc : Nat) (rest : List Char) (h : headNotDigit rest) :
    parseNatAux acc rest = (acc, rest) := by
  cases rest with
  | nil => rfl
  | cons c cs =>
    simp only [headNotDigit] at h
    simp [parseNatAux, h]

theorem foldl_natDigitsRev (n : Nat) :
    ∀ acc, (natDigitsRev n).reverse.foldl (fun a d => a * 10 + d) acc
      = acc * 10 ^ (natDigitsRev n).length + n := by
  induction n using Nat.strong_induction_on with
  | _ n ih =>
    intro acc
    rw [natDigitsRev_eq]
    by_cases h : n = 0
    · simp [h]
    · simp only [h, if_false, List.reverse_cons, List.foldl_append, List.length_cons]
      rw [ih (n / 10) (Nat.div_lt_self (Nat.pos_of_ne_zero h) (by omega)) acc]
      simp only [List.foldl_cons, List.foldl_nil]
      have : (acc * 10 ^ (natDigitsRev (n / 10)).length + n / 10) * 10 + n % 10
          = acc * (10 ^ (natDigitsRev (n / 10)).length * 10) + (10 * (n / 10) + n % 10) := by
        ring
      rw [this, Nat.div_add_mod]
      ring

theorem parseNatChars_natChars (n : Nat) (rest : List Char) (h : headNotDigit rest) :
    parseNatChars (natChars n ++ rest) = some (n, rest) := by
  unfold natChars
  by_cases hn : n = 0
  · simp only [hn, if_true, List.cons_append, List.nil_append, parseNatChars]
    rw [show charDigit '0' = some 0 from rfl]
    exact congrArg some (parseNatAux_stop 0 rest h)
  · simp only [hn, if_false]
    have hne : natDigitsRev n ≠ [] := by
      rw [natDigitsRev_eq]
      simp [hn]
    cases hrev : (natDigitsRev n).reverse with
    | nil => exact absurd (by simpa using congrArg List.reverse hrev) hne
    | cons d ds =>
      have hds : ∀ x ∈ d :: ds, x < 10 := by
        intro x hx
        apply natDigitsRev_lt n
        have : x ∈ (natDigitsRev n).reverse := by rw [hrev]; exact hx
        simpa using this
      have hd : d < 10 := hds d (by simp)
      simp only [hrev, List.map_cons, List.cons_append, parseNatChars,
        charDigit_digitChar d hd]
      have := parseNatAux_map_digits ds (fun x hx => hds x (by simp [hx])) d rest
      rw [this, parseNatAux_stop _ rest h]
      have hfold := foldl_natDigitsRev n 0
      rw [hrev] at hfold
      simp only [List.foldl_cons, Nat.zero_mul, Nat.zero_add] at hfold
      rw [hfold]

/-- The escape sequence `json.dumps` (with its default `ensure_ascii=True`)
emits for one character: the two-character shorthands of `ESCAPE_DCT`,
printable ASCII verbatim, and `\uXXXX` otherwise, using a UTF-16
surrogate pair for code points beyond the Basic Multilingual Plane. -/
def escChar (c : Char) : List Char :=
  if c = '"' then ['\\', '"']
  else if c = '\\' then ['\\', '\\']
  else if c.toNat = 8 then ['\\', 'b']
  else if c.toNat = 9 then ['\\', 't']
  else if c.toNat = 10 then ['\\', 'n']
  else if c.toNat = 12 then ['\\', 'f']
  else if c.toNat = 13 then ['\\', 'r']
  else if 0x20 ≤ c.toNat ∧ c.toNat ≤ 0x7e then [c]
  else if c.toNat < 0x10000 then '\\' :: 'u' :: fixedHex 4 c.toNat
  else '\\' :: 'u' :: fixedHex 4 (0xd800 + (c.toNat - 0x10000) / 0x400)
    ++ '\\' :: 'u' :: fixedHex 4 (0xdc00 + (c.toNat - 0x10000) % 0x400)

/-- `ensure_ascii` escaping of a whole string body. -/
def escapeChars : List Char → List Char
  | [] => []
  | c :: cs => escChar c ++ escapeChars cs

/-- Scan a JSON string body up to the closing unescaped quote, keeping
escape sequences intact; returns the raw body and the remaining input. -/
def splitStringBody : List Char → Option (List Char × List Char)
  | [] => none
  | '"' :: r => some ([], r)
  | '\\' :: c :: r =>
    (fun p => ('\\' :: c :: p.1, p.2)) <$> splitStringBody r
  | '\\' :: [] => none
  | c :: r => (fun p => (c :: p.1, p.2)) <$> splitStringBody r

/-- The character denoted by a two-character escape `\c`
(`json/decoder.py`'s `BACKSLASH` table). -/
def simpleEsc : Char → Option Char
  | '"' => some '"'
  | '\\' => some '\\'
  | '/' => some '/'
  | 'b' => some '\x08'
  | 'f' => some '\x0c'
  | 'n' => some '\n'
  | 'r' => some '\x0d'
  | 't' => some '\t'
  | _ => none

/-- Decode one character of a scanned string body
(`json/decoder.py`'s `py_scanstring`), combining surrogate pairs.
A lone surrogate is modelled as a decode failure; `dumps` output never
contains one. Returns the decoded character and the remaining input. -/
def unescStep : List Char → Option (Char × List Char)
  | [] => none
  | c :: r =>
    if c = '\\' then
      match r with
      | [] => none
      | e :: r2 =>
        if e = 'u' then
          match r2 with
          | a :: b :: c2 :: d :: r3 =>
            (hex4 a b c2 d).bind (fun code =>
              if 55296 ≤ code ∧ code < 56320 then
                match r3 with
                | x :: y :: a2 :: b2 :: c3 :: d2 :: r4 =>
                  if x = '\\' ∧ y = 'u' then
                    (hex4 a2 b2 c3 d2).bind (fun lo =>
                      if 56320 ≤ lo ∧ lo < 57344 then
                        some (Char.ofNat (65536 + (code - 55296) * 1024 + (lo - 56320)), r4)
                      else none)
                  else none
                | _ => none
              else if 56320 ≤ code ∧ code < 57344 then none
              else some (Char.ofNat code, r3))
          | _ => none
        else (simpleEsc e).map (fun ec => (ec, r2))
    else some (c, r)

/-- Decode a whole scanned string body; the fuel starts at the input
length and each step consumes at least one character. -/
def unescapeAux : Nat → List Char → Option (List Char)
  | _, [] => some []
  | 0, _ :: _ => none
  | fuel + 1, c :: r =>
    match unescStep (c :: r) with
    | some (ch, rest) => (fun t => ch :: t) <$> unescapeAux fuel rest
    | none => none

/-- Decode the escape sequences of a scanned string body. -/
def unescape (cs : List Char) : Option (List Char) :=
  unescapeAux cs.length cs

theorem char_valid_ranges (c : Char) :
    c.toNat < 55296 ∨ 57343 < c.toNat ∧ c.toNat < 1114112 := c.valid

theorem hexDigitChar_ne (d : Nat) (h : d < 16) :
    hexDigitChar d ≠ '"' ∧ hexDigitChar d ≠ '\\' := by
  interval_cases d <;> exact ⟨by decide, by decide⟩

theorem splitStringBody_cons_plain (c : Char) (h1 : c ≠ '"') (h2 : c ≠ '\\') (y : List Char) :
    splitStringBody (c :: y) = (fun p => (c :: p.1, p.2)) <$> splitStringBody y := by
  rw [splitStringBody.eq_def]
  split <;> simp_all

theorem splitStringBody_plain (L : List Char) (hL : ∀ c ∈ L, c ≠ '"' ∧ c ≠ '\\') :
    ∀ X, splitStringBody (L ++ X) = (fun p => (L ++ p.1, p.2)) <$> splitStringBody X := by
  induction L with
  | nil =>
    intro X
    cases h : splitStringBody X <;> simp [h]
  | cons c L ih =>
    intro X
    have hc := hL c (by simp)
    rw [List.cons_append, splitStringBody_cons_plain c hc.1 hc.2,
      ih (fun x hx => hL x (by simp [hx])) X]
    cases splitStringBody X <;> simp

theorem splitStringBody_twoEsc (e : Char) (X : List Char) :
    splitStringBody ('\\' :: e :: X) = (fun p => ('\\' :: e :: p.1, p.2)) <$> splitStringBody X := by
  rw [splitStringBody.eq_def]
  rfl

theorem fixedHex4_plain (n : Nat) (h : n < 65536) :
    ∀ c ∈ fixedHex 4 n, c ≠ '"' ∧ c ≠ '\\' := by
  rw [fixedHex_four]
  intro c hc
  simp only [List.mem_cons, List.mem_singleton, List.not_mem_nil] at hc
  rcases hc with rfl | rfl | rfl | rfl | hfalse
  · exact hexDigitChar_ne _ (by omega)
  · exact hexDigitChar_ne _ (by omega)
  · exact hexDigitChar_ne _ (by omega)
  · exact hexDigitChar_ne _ (by omega)
  · simp at hfalse

theorem char_eq_of_toNat_eq (c : Char) (n : Nat) (h : c.toNat = n) : c = Char.ofNat n := by
  rw [← h, Char.ofNat_toNat]

theorem escChar_cases (c : Char) :
    (c = '"' ∧ escChar c = ['\\', '"']) ∨
    (c = '\\' ∧ escChar c = ['\\', '\\']) ∨
    (c = '\x08' ∧ escChar c = ['\\', 'b']) ∨
    (c = '\t' ∧ escChar c = ['\\', 't']) ∨
    (c = '\n' ∧ escChar c = ['\\', 'n']) ∨
    (c = '\x0c' ∧ escChar c = ['\\', 'f']) ∨
    (c = '\x0d' ∧ escChar c = ['\\', 'r']) ∨
    (32 ≤ c.toNat ∧ c.toNat ≤ 126 ∧ c ≠ '"' ∧ c ≠ '\\' ∧ escChar c = [c]) ∨
    (c.toNat < 65536 ∧ ¬(55296 ≤ c.toNat ∧ c.toNat < 57344) ∧
      escChar c = '\\' :: 'u' :: fixedHex 4 c.toNat) ∨
    (65536 ≤ c.toNat ∧ c.toNat < 1114112 ∧
      escChar c = '\\' :: 'u' :: fixedHex 4 (55296 + (c.toNat - 65536) / 1024)
        ++ '\\' :: 'u' :: fixedHex 4 (56320 + (c.toNat - 65536) % 1024)) := by
  have hvalid := char_valid_ranges c
  by_cases h1 : c = '"'
  · exact Or.inl ⟨h1, by simp [escChar, h1]⟩
  by_cases h2 : c = '\\'
  · exact Or.inr (Or.inl ⟨h2, by simp [escChar, h1, h2]⟩)
  by_cases h3 : c.toNat = 8
  · refine Or.inr (Or.inr (Or.inl ⟨char_eq_of_toNat_eq c 8 h3, ?_⟩))
    simp [escChar, h1, h2, h3]
  by_cases h4 : c.toNat = 9
  · refine Or.inr (Or.inr (Or.inr (Or.inl ⟨char_eq_of_toNat_eq c 9 h4, ?_⟩)))
    simp [escChar, h1, h2, h3, h4]
  by_cases h5 : c.toNat = 10
  · refine Or.inr (Or.inr (Or.inr (Or.inr (Or.inl ⟨char_eq_of_toNat_eq c 10 h5, ?_⟩))))
    simp [escChar, h1, h2, h3, h4, h5]
  by_cases h6 : c.toNat = 12
  · refine Or.inr (Or.inr (Or.inr (Or.inr (Or.inr (Or.inl
      ⟨char_eq_of_toNat_eq c 12 h6, ?_⟩)))))
    simp [escChar, h1, h2, h3, h4, h5, h6]
  by_cases h7 : c.toNat = 13
  · refine Or.inr (Or.inr (Or.inr (Or.inr (Or.inr (Or.inr (Or.inl
      ⟨char_eq_of_toNat_eq c 13 h7, ?_⟩))))))
    simp [escChar, h1, h2, h3, h4, h5, h6, h7]
  by_cases h8 : 32 ≤ c.toNat ∧ c.toNat ≤ 126
  · refine Or.inr (Or.inr (Or.inr (Or.inr (Or.inr (Or.inr (Or.inr (Or.inl
      ⟨h8.1, h8.2, h1, h2, ?_⟩)))))))
    simp [escChar, h1, h2, h3, h4, h5, h6, h7, h8]
  by_cases h9 : c.toNat < 65536
  · refine Or.inr (Or.inr (Or.inr (Or.inr (Or.inr (Or.inr (Or.inr (Or.inr (Or.inl
      ⟨h9, by omega, ?_⟩))))))))
    simp [escChar, h1, h2, h3, h4, h5, h6, h7, h8, h9]
  · refine Or.inr (Or.inr (Or.inr (Or.inr (Or.inr (Or.inr (Or.inr (Or.inr (Or.inr
      ⟨by omega, by omega, ?_⟩))))))))
    simp [escChar, h1, h2, h3, h4, h5, h6, h7, h8, h9]

theorem splitStringBody_escChar (c : Char) (X : List Char) :
    splitStringBody (escChar c ++ X) = (fun p => (escChar c ++ p.1, p.2)) <$> splitStringBody X := by
  rcases escChar_cases c with ⟨hc, he⟩ | ⟨hc, he⟩ | ⟨hc, he⟩ | ⟨hc, he⟩ | ⟨hc, he⟩ |
    ⟨hc, he⟩ | ⟨hc, he⟩ | ⟨hn1, hn2, hq, hb, he⟩ | ⟨hn1, hn2, he⟩ | ⟨hn1, hn2, he⟩
  · rw [he, List.cons_append, List.cons_append, List.nil_append, splitStringBody_twoEsc]
    cases h : splitStringBody X <;> rfl
  · rw [he, List.cons_append, List.cons_append, List.nil_append, splitStringBody_twoEsc]
    cases h : splitStringBody X <;> rfl
  · rw [he, List.cons_append, List.cons_append, List.nil_append, splitStringBody_twoEsc]
    cases h : splitStringBody X <;> rfl
  · rw [he, List.cons_append, List.cons_append, List.nil_append, splitStringBody_twoEsc]
    cases h : splitStringBody X <;> rfl
  · rw [he, List.cons_append, List.cons_append, List.nil_append, splitStringBody_twoEsc]
    cases h : splitStringBody X <;> rfl
  · rw [he, List.cons_append, List.cons_append, List.nil_append, splitStringBody_twoEsc]
    cases h : splitStringBody X <;> rfl
  · rw [he, List.cons_append, List.cons_append, List.nil_append, splitStringBody_twoEsc]
    cases h : splitStringBody X <;> rfl
  · rw [he, List.singleton_append, splitStringBody_cons_plain c hq hb]
    cases h : splitStringBody X <;> rfl
  · rw [he, List.cons_append, List.cons_append, splitStringBody_twoEsc,
      splitStringBody_plain (fixedHex 4 c.toNat) (fixedHex4_plain _ hn1) X]
    cases h : splitStringBody X <;> rfl
  · rw [he]
    simp only [List.append_assoc, List.cons_append]
    rw [splitStringBody_twoEsc,
      splitStringBody_plain (fixedHex 4 (55296 + (c.toNat - 65536) / 1024))
        (fixedHex4_plain _ (by omega))
        ('\\' :: 'u' :: (fixedHex 4 (56320 + (c.toNat - 65536) % 1024) ++ X)),
      splitStringBody_twoEsc,
      splitStringBody_plain (fixedHex 4 (56320 + (c.toNat - 65536) % 1024))
        (fixedHex4_plain _ (by omega)) X]
    cases h : splitStringBody X <;> simp

theorem splitStringBody_escapeChars (cs : List Char) (rest : List Char) :
    splitStringBody (escapeChars cs ++ '"' :: rest) = some (escapeChars cs, rest) := by
  induction cs with
  | nil =>
    rw [escapeChars, List.nil_append, splitStringBody.eq_def]
    rfl
  | cons c cs ih =>
    rw [escapeChars, List.append_assoc, splitStringBody_escChar, ih]
    rfl


theorem unescStep_surrogate (a b c2 d e f g h : Char) (r : List Char) (hi lo : Nat)
    (h1 : hex4 a b c2 d = some hi) (h2 : hex4 e f g h = some lo)
    (hhi1 : 55296 ≤ hi) (hhi2 : hi < 56320) (hlo1 : 56320 ≤ lo) (hlo2 : lo < 57344) :
    unescStep ('\\' :: 'u' :: a :: b :: c2 :: d :: '\\' :: 'u' :: e :: f :: g :: h :: r)
      = some (Char.ofNat (65536 + (hi - 55296) * 1024 + (lo - 56320)), r) := by
  simp [unescStep, h1, h2, hhi1, hhi2, hlo1, hlo2]

theorem unescStep_escChar (c : Char) (X : List Char) :
    unescStep (escChar c ++ X) = some (c, X) := by
  rcases escChar_cases c with ⟨hc, he⟩ | ⟨hc, he⟩ | ⟨hc, he⟩ | ⟨hc, he⟩ | ⟨hc, he⟩ |
    ⟨hc, he⟩ | ⟨hc, he⟩ | ⟨hn1, hn2, hq, hb, he⟩ | ⟨hn1, hn2, he⟩ | ⟨hn1, hn2, he⟩
  · subst hc; rw [he]; rfl
  · subst hc; rw [he]; rfl
  · subst hc; rw [he]; rfl
  · subst hc; rw [he]; rfl
  · subst hc; rw [he]; rfl
  · subst hc; rw [he]; rfl
  · subst hc; rw [he]; rfl
  · rw [he, List.singleton_append]
    simp [unescStep, hb]
  · rw [he, fixedHex_four]
    simp only [List.cons_append, List.nil_append]
    have hA : ¬(55296 ≤ c.toNat ∧ c.toNat < 56320) := by omega
    have hB : ¬(56320 ≤ c.toNat ∧ c.toNat < 57344) := by omega
    simp [unescStep, hex4_fixedHex c.toNat hn1, hA, hB, Char.ofNat_toNat]
  · have hhi : 55296 + (c.toNat - 65536) / 1024 < 65536 := by omega
    have hlo : 56320 + (c.toNat - 65536) % 1024 < 65536 := by omega
    rw [he, fixedHex_four, fixedHex_four]
    simp only [List.cons_append, List.nil_append, List.append_assoc]
    rw [unescStep_surrogate _ _ _ _ _ _ _ _ X _ _
      (hex4_fixedHex _ hhi) (hex4_fixedHex _ hlo) (by omega) (by omega) (by omega) (by omega)]
    have harith : 65536 + (55296 + (c.toNat - 65536) / 1024 - 55296) * 1024
        + (56320 + (c.toNat - 65536) % 1024 - 56320) = c.toNat := by omega
    rw [harith, Char.ofNat_toNat]

theorem escChar_length_pos (c : Char) : 0 < (escChar c).length := by
  rcases escChar_cases c with ⟨hc, he⟩ | ⟨hc, he⟩ | ⟨hc, he⟩ | ⟨hc, he⟩ | ⟨hc, he⟩ |
    ⟨hc, he⟩ | ⟨hc, he⟩ | ⟨hn1, hn2, hq, hb, he⟩ | ⟨hn1, hn2, he⟩ | ⟨hn1, hn2, he⟩ <;>
    simp [he]

theorem unescapeAux_nil (fuel : Nat) : unescapeAux fuel [] = some [] := by
  cases fuel <;> rfl

theorem unescapeAux_cons (fuel : Nat) (c : Char) (r : List Char) (ch : Char)
    (rest : List Char) (hstep : unescStep (c :: r) = some (ch, rest)) :
    unescapeAux (fuel + 1) (c :: r) = (fun t => ch :: t) <$> unescapeAux fuel rest := by
  simp [unescapeAux, hstep]

theorem unescapeAux_escapeChars (cs : List Char) :
    ∀ fuel, (escapeChars cs).length ≤ fuel →
      unescapeAux fuel (escapeChars cs) = some cs := by
  induction cs with
  | nil => intro fuel _; exact unescapeAux_nil fuel
  | cons c cs ih =>
    intro fuel hfuel
    rw [escapeChars] at hfuel ⊢
    have hlen : 0 < (escChar c).length := escChar_length_pos c
    rw [List.length_append] at hfuel
    obtain ⟨f, rfl⟩ : ∃ f, fuel = f + 1 := ⟨fuel - 1, by omega⟩
    have hle : (escapeChars cs).length ≤ f := by omega
    cases hesc : escChar c with
    | nil => rw [hesc] at hlen; simp at hlen
    | cons y ys =>
      have hstep : unescStep (y :: (ys ++ escapeChars cs)) = some (c, escapeChars cs) := by
        rw [← List.cons_append, ← hesc]
        exact unescStep_escChar c (escapeChars cs)
      rw [List.cons_append, unescapeAux_cons f _ _ _ _ hstep, ih f hle]
      rfl

theorem unescape_escapeChars (cs : List Char) :
    unescape (escapeChars cs) = some cs :=
  unescapeAux_escapeChars cs _ le_rfl

/-- JSON scalar values appearing in the session dictionaries
(`to_dict` only produces strings, integers, booleans and `None`). -/
inductive JValue where
  | null : JValue
  | bool : Bool → JValue
  | int : Int → JValue
  | str : String → JValue
deriving DecidableEq, Repr

/-- A parsed top-level JSON document: a scalar or a flat object. -/
inductive JTop where
  | scalar : JValue → JTop
  | obj : List (String × JValue) → JTop
deriving DecidableEq, Repr

/-- `json.dumps` rendering of a string (quotes plus `ensure_ascii` body). -/
def dumpString (s : String) : List Char :=
  '"' :: (escapeChars s.data ++ ['"'])

/-- `json.dumps` rendering of a scalar value. -/
def dumpValue : JValue → List Char
  | .null => ['n', 'u', 'l', 'l']
  | .bool true => 't' :: ['r', 'u', 'e']
  | .bool false => 'f' :: ['a', 'l', 's', 'e']
  | .int n => intChars n
  | .str s => dumpString s

/-- `json.dumps` rendering of the members of a flat object with
separators `(',', ':')` as used by `create_log_entry`. -/
def dumpMembers : List (String × JValue) → List Char
  | [] => []
  | [(k, v)] => dumpString k ++ ':' :: dumpValue v
  | (k, v) :: ms => dumpString k ++ ':' :: dumpValue v ++ ',' :: dumpMembers ms

/-- `json.dumps(obj, separators=(',', ':'))` for a flat object. -/
def pyDumps (m : List (String × JValue)) : String :=
  ⟨'{' :: (dumpMembers m ++ ['}'])⟩

/-- Parse one JSON scalar value (the value grammar restricted to the
forms the program serializes: strings, integers, booleans, null). -/
def parseJValue : List Char → Option (JValue × List Char)
  | '"' :: r =>
    (splitStringBody r).bind (fun p =>
      (unescape p.1).map (fun content => (JValue.str (String.mk content), p.2)))
  | 'n' :: 'u' :: 'l' :: 'l' :: r => some (.null, r)
  | 't' :: 'r' :: 'u' :: 'e' :: r => some (.bool true, r)
  | 'f' :: 'a' :: 'l' :: 's' :: 'e' :: r => some (.bool false, r)
  | '-' :: r => (parseNatChars r).map (fun p => (JValue.int (-(p.1 : Int)), p.2))
  | c :: r =>
    if (charDigit c).isSome then
      (parseNatChars (c :: r)).map (fun p => (JValue.int (p.1 : Int), p.2))
    else none
  | [] => none

/-- Parse the members of a nonempty flat JSON object after the opening
brace; the fuel starts at the input length and strictly bounds the
number of members. -/
def parseMembersAux : Nat → List Char → Option (List (String × JValue) × List Char)
  | 0, _ => none
  | fuel + 1, cs =>
    match cs with
    | '"' :: r =>
      (splitStringBody r).bind (fun p =>
        (unescape p.1).bind (fun key =>
          match p.2 with
          | ':' :: r3 =>
            (parseJValue r3).bind (fun q =>
              match q.2 with
              | ',' :: r5 =>
                (parseMembersAux fuel r5).map (fun w => ((String.mk key, q.1) :: w.1, w.2))
              | '}' :: r5 => some ([(String.mk key, q.1)], r5)
              | _ => none)
          | _ => none))
    | _ => none

/-- `json.loads` on a complete document (no surrounding whitespace, as the
program always strips lines before parsing; trailing data is an error). -/
def pyLoads (s : String) : Option JTop :=
  match s.data with
  | '{' :: r =>
    match r with
    | '}' :: r2 => if r2 = [] then some (.obj []) else none
    | _ =>
      (parseMembersAux r.length r).bind (fun p => if p.2 = [] then some (.obj p.1) else none)
  | cs =>
    (parseJValue cs).bind (fun p => if p.2 = [] then some (.scalar p.1) else none)

theorem string_mk_data (s : String) : String.mk s.data = s := rfl

theorem parseJValue_str (s : String) (rest : List Char) :
    parseJValue (dumpString s ++ rest) = some (.str s, rest) := by
  rw [dumpString, List.cons_append, List.append_assoc, List.singleton_append]
  show parseJValue ('"' :: (escapeChars s.data ++ '"' :: rest)) = some (.str s, rest)
  rw [parseJValue, splitStringBody_escapeChars]
  show (unescape (escapeChars s.data)).map
    (fun content => (JValue.str (String.mk content), rest)) = some (.str s, rest)
  rw [unescape_escapeChars]
  simp [string_mk_data]

theorem natChars_head_digit (n : Nat) :
    ∃ d ds, natChars n = d :: ds ∧ (charDigit d).isSome := by
  unfold natChars
  by_cases h : n = 0
  · exact ⟨'0', [], by simp [h], by decide⟩
  · simp only [h, if_false]
    have hne : natDigitsRev n ≠ [] := by rw [natDigitsRev_eq]; simp [h]
    cases hrev : (natDigitsRev n).reverse with
    | nil => exact absurd (by simpa using congrArg List.reverse hrev) hne
    | cons d ds =>
      refine ⟨digitChar d, ds.map digitChar, by simp [hrev], ?_⟩
      have hd : d < 10 := by
        apply natDigitsRev_lt n
        have : d ∈ (natDigitsRev n).reverse := by rw [hrev]; simp
        simpa using this
      rw [charDigit_digitChar d hd]
      rfl

theorem parseJValue_digit (c : Char) (r : List Char) (h : (charDigit c).isSome) :
    parseJValue (c :: r)
      = (parseNatChars (c :: r)).map (fun p => (JValue.int (p.1 : Int), p.2)) := by
  rw [parseJValue.eq_def]
  split <;> simp_all [charDigit]

theorem parseJValue_intChars (n : Int) (rest : List Char) (hrest : headNotDigit rest) :
    parseJValue (intChars n ++ rest) = some (.int n, rest) := by
  unfold intChars
  by_cases hn : n < 0
  · simp only [hn, if_true, List.cons_append]
    rw [parseJValue, parseNatChars_natChars n.natAbs rest hrest]
    have hval : (-(n.natAbs : Int)) = n := by omega
    simp only [Option.map_some', hval]
  · simp only [hn, if_false]
    obtain ⟨d, ds, hnat, hd⟩ := natChars_head_digit n.toNat
    rw [hnat, List.cons_append, parseJValue_digit d (ds ++ rest) hd, ← List.cons_append,
      ← hnat, parseNatChars_natChars n.toNat rest hrest]
    have hval : ((n.toNat : Int)) = n := by omega
    simp only [Option.map_some', hval]

theorem parseJValue_dumpValue (v : JValue) (rest : List Char) (hrest : headNotDigit rest) :
    parseJValue (dumpValue v ++ rest) = some (v, rest) := by
  cases v with
  | null => rfl
  | bool b => cases b <;> rfl
  | int n => exact parseJValue_intChars n rest hrest
  | str s => exact parseJValue_str s rest

theorem dumpString_ne_nil (k : String) : dumpString k ≠ [] := by
  rw [dumpString]
  simp

theorem parseMembersAux_single (fuel : Nat) (k : String) (v : JValue) (rest : List Char) :
    parseMembersAux (fuel + 1) (dumpString k ++ ':' :: (dumpValue v ++ '}' :: rest))
      = some ([(k, v)], rest) := by
  rw [dumpString, List.cons_append, List.append_assoc, List.singleton_append]
  rw [parseMembersAux]
  show (splitStringBody (escapeChars k.data ++ '"' :: (':' :: (dumpValue v ++ '}' :: rest)))).bind _
    = some ([(k, v)], rest)
  rw [splitStringBody_escapeChars]
  show (unescape (escapeChars k.data)).bind _ = some ([(k, v)], rest)
  rw [unescape_escapeChars]
  show (parseJValue (dumpValue v ++ '}' :: rest)).bind _ = some ([(k, v)], rest)
  rw [parseJValue_dumpValue v ('}' :: rest) (by simp [headNotDigit, charDigit])]
  show some ([(String.mk k.data, v)], rest) = some ([(k, v)], rest)
  rw [string_mk_data]

theorem parseMembersAux_cons (fuel : Nat) (k : String) (v : JValue)
    (tail : List Char) :
    parseMembersAux (fuel + 1) (dumpString k ++ ':' :: (dumpValue v ++ ',' :: tail))
      = (parseMembersAux fuel tail).map (fun w => ((k, v) :: w.1, w.2)) := by
  rw [dumpString, List.cons_append, List.append_assoc, List.singleton_append]
  rw [parseMembersAux]
  show (splitStringBody (escapeChars k.data ++ '"' :: (':' :: (dumpValue v ++ ',' :: tail)))).bind _
    = _
  rw [splitStringBody_escapeChars]
  show (unescape (escapeChars k.data)).bind _ = _
  rw [unescape_escapeChars]
  show (parseJValue (dumpValue v ++ ',' :: tail)).bind _ = _
  rw [parseJValue_dumpValue v (',' :: tail) (by simp [headNotDigit, charDigit])]
  show (parseMembersAux fuel tail).map (fun w => ((String.mk k.data, v) :: w.1, w.2)) = _
  rw [string_mk_data]

theorem parseMembersAux_dumpMembers (m : List (String × JValue)) (hm : m ≠ []) :
    ∀ fuel, m.length ≤ fuel → ∀ rest,
      parseMembersAux fuel (dumpMembers m ++ '}' :: rest) = some (m, rest) := by
  induction m with
  | nil => exact absurd rfl hm
  | cons kv m ih =>
    intro fuel hfuel rest
    obtain ⟨k, v⟩ := kv
    obtain ⟨f, rfl⟩ : ∃ f, fuel = f + 1 :=
      ⟨fuel - 1, by simp at hfuel; omega⟩
    cases m with
    | nil =>
      rw [show dumpMembers [(k, v)] = dumpString k ++ ':' :: dumpValue v from rfl,
        List.append_assoc, List.cons_append]
      show parseMembersAux (f + 1) (dumpString k ++ ':' :: (dumpValue v ++ '}' :: rest))
        = some ([(k, v)], rest)
      exact parseMembersAux_single f k v rest
    | cons kv2 m2 =>
      rw [show dumpMembers ((k, v) :: kv2 :: m2)
          = dumpString k ++ ':' :: dumpValue v ++ ',' :: dumpMembers (kv2 :: m2) from rfl]
      have hassoc : (dumpString k ++ ':' :: dumpValue v ++ ',' :: dumpMembers (kv2 :: m2))
          ++ '}' :: rest
          = dumpString k ++ ':' :: (dumpValue v ++ ',' :: (dumpMembers (kv2 :: m2) ++ '}' :: rest)) := by
        simp [List.append_assoc]
      rw [hassoc, parseMembersAux_cons f k v (dumpMembers (kv2 :: m2) ++ '}' :: rest),
        ih (by simp) f (by simp at hfuel ⊢; omega) rest]
      rfl

theorem dumpMembers_cons_head (k : String) (v : JValue) (m : List (String × JValue)) :
    ∃ t, dumpMembers ((k, v) :: m) = '"' :: t := by
  cases m with
  | nil => exact ⟨escapeChars k.data ++ ['"'] ++ ':' :: dumpValue v, by
      rw [show dumpMembers [(k, v)] = dumpString k ++ ':' :: dumpValue v from rfl, dumpString]
      simp⟩
  | cons kv2 m2 => exact ⟨escapeChars k.data ++ ['"'] ++ ':' :: dumpValue v ++ ',' :: dumpMembers (kv2 :: m2), by
      rw [show dumpMembers ((k, v) :: kv2 :: m2)
          = dumpString k ++ ':' :: dumpValue v ++ ',' :: dumpMembers (kv2 :: m2) from rfl, dumpString]
      simp⟩

theorem dumpMembers_length_ge (m : List (String × JValue)) :
    m.length ≤ (dumpMembers m).length := by
  induction m with
  | nil => simp [dumpMembers]
  | cons kv m ih =>
    obtain ⟨k, v⟩ := kv
    cases m with
    | nil =>
      rw [show dumpMembers [(k, v)] = dumpString k ++ ':' :: dumpValue v from rfl]
      rw [dumpString]
      simp
    | cons kv2 m2 =>
      rw [show dumpMembers ((k, v) :: kv2 :: m2)
          = dumpString k ++ ':' :: dumpValue v ++ ',' :: dumpMembers (kv2 :: m2) from rfl]
      rw [dumpString]
      simp at ih ⊢
      omega

theorem pyLoads_pyDumps (m : List (String × JValue)) (hm : m ≠ []) :
    pyLoads (pyDumps m) = some (.obj m) := by
  obtain ⟨⟨k, v⟩, m2, rfl⟩ : ∃ kv mt, m = kv :: mt := by
    cases m with
    | nil => exact absurd rfl hm
    | cons kv mt => exact ⟨kv, mt, rfl⟩
  obtain ⟨t, ht⟩ := dumpMembers_cons_head k v m2
  rw [pyDumps, pyLoads]
  show (match '{' :: (dumpMembers ((k, v) :: m2) ++ ['}']) with
    | '{' :: r =>
      match r with
      | '}' :: r2 => if r2 = [] then some (JTop.obj []) else none
      | _ =>
        (parseMembersAux r.length r).bind
          (fun p => if p.2 = [] then some (JTop.obj p.1) else none)
    | cs =>
      (parseJValue cs).bind (fun p => if p.2 = [] then some (JTop.scalar p.1) else none))
    = some (JTop.obj ((k, v) :: m2))
  rw [ht]
  show (parseMembersAux ('"' :: t ++ ['}']).length ('"' :: t ++ ['}'])).bind
    (fun p => if p.2 = [] then some (JTop.obj p.1) else none) = some (JTop.obj ((k, v) :: m2))
  rw [← ht]
  have hlen : ((k, v) :: m2).length ≤ (dumpMembers ((k, v) :: m2) ++ ['}']).length := by
    have := dumpMembers_length_ge ((k, v) :: m2)
    simp at this ⊢
    omega
  rw [show dumpMembers ((k, v) :: m2) ++ ['}'] = dumpMembers ((k, v) :: m2) ++ '}' :: [] from rfl,
    parseMembersAux_dumpMembers ((k, v) :: m2) (by simp) _ hlen []]
  rfl

/-- A Python `datetime` value: calendar fields plus an optional UTC
offset in whole minutes (`timezone.utc` is offset 0; the program only
creates aware UTC datetimes but `from_dict` can parse any offset). -/
structure DateTime where
  year : Nat
  month : Nat
  day : Nat
  hour : Nat
  minute : Nat
  second : Nat
  microsecond : Nat
  tz : Option Int
deriving DecidableEq, Repr

/-- Gregorian leap-year rule (`calendar.isleap`). -/
def isLeap (y : Nat) : Bool :=
  y % 4 = 0 && (y % 100 != 0 || y % 400 = 0)

/-- Days in a month, as `datetime` validates on construction. -/
def daysInMonth (y m : Nat) : Nat :=
  if m = 2 then (if isLeap y then 29 else 28)
  else if m = 4 ∨ m = 6 ∨ m = 9 ∨ m = 11 then 30
  else 31

/-- The field ranges every Python `datetime` object satisfies and
`fromisoformat` enforces when parsing. -/
def validYmdHms (y mo d h mi s us : Nat) : Bool :=
  1 ≤ y && y ≤ 9999 && 1 ≤ mo && mo ≤ 12 && 1 ≤ d && d ≤ daysInMonth y mo &&
    h ≤ 23 && mi ≤ 59 && s ≤ 59 && us ≤ 999999

/-- Invariant of a Python `datetime` object: valid calendar fields and a
timezone offset strictly within a day (`timezone` bounds). -/
def DateTime.Valid (t : DateTime) : Prop :=
  validYmdHms t.year t.month t.day t.hour t.minute t.second t.microsecond = true ∧
    (∀ o ∈ t.tz, o.natAbs ≤ 1439)

instance (t : DateTime) : Decidable t.Valid := by
  unfold DateTime.Valid
  infer_instance

/-- The `.ffffff` fragment of `isoformat` (present iff microsecond is nonzero). -/
def usChars (us : Nat) : List Char :=
  if us = 0 then [] else '.' :: fixedDec 6 us

/-- The offset suffix of `isoformat`: empty for naive values, else a sign
and `HH:MM` of the absolute offset. -/
def tzChars : Option Int → List Char
  | none => []
  | some o => (if o < 0 then '-' else '+') ::
      (fixedDec 2 (o.natAbs / 60) ++ ':' :: fixedDec 2 (o.natAbs % 60))

/-- `datetime.isoformat()` output: `YYYY-MM-DDTHH:MM:SS`, `.ffffff` when
the microsecond field is nonzero, and `+HH:MM`/`-HH:MM` for an aware value. -/
def isoChars (t : DateTime) : List Char :=
  fixedDec 4 t.year ++ '-' :: fixedDec 2 t.month ++ '-' :: fixedDec 2 t.day ++
    'T' :: fixedDec 2 t.hour ++ ':' :: fixedDec 2 t.minute ++ ':' :: fixedDec 2 t.second ++
    (usChars t.microsecond ++ tzChars t.tz)

/-- `datetime.isoformat()`. -/
def isoformat (t : DateTime) : String := ⟨isoChars t⟩

/-- Consume one expected character. -/
def expectChar (c : Char) : List Char → Option (List Char)
  | c' :: r => if c' = c then some r else none
  | [] => none

/-- Parse the timezone suffix of an ISO string (empty, or a sign with
`HH:MM`), with `fromisoformat`'s offset validation. -/
def parseIsoTz (y mo d h mi s us : Nat) : List Char → Option DateTime
  | [] => some ⟨y, mo, d, h, mi, s, us, none⟩
  | '+' :: ro =>
    (parseFixedDec 2 ro).bind (fun p =>
      (expectChar ':' p.2).bind (fun rb =>
        (parseFixedDec 2 rb).bind (fun q =>
          if q.2 = [] ∧ p.1 ≤ 23 ∧ q.1 ≤ 59 then
            some ⟨y, mo, d, h, mi, s, us, some (p.1 * 60 + q.1)⟩
          else none)))
  | '-' :: ro =>
    (parseFixedDec 2 ro).bind (fun p =>
      (expectChar ':' p.2).bind (fun rb =>
        (parseFixedDec 2 rb).bind (fun q =>
          if q.2 = [] ∧ p.1 ≤ 23 ∧ q.1 ≤ 59 then
            some ⟨y, mo, d, h, mi, s, us, some (-(p.1 * 60 + q.1 : Int))⟩
          else none)))
  | _ => none

/-- `datetime.fromisoformat` on the grammar `isoformat` emits (the
subset of ISO-8601 the program ever writes and re-reads). -/
def parseIsoChars (cs : List Char) : Option DateTime :=
  (parseFixedDec 4 cs).bind (fun py =>
    (expectChar '-' py.2).bind (fun r2 =>
      (parseFixedDec 2 r2).bind (fun pmo =>
        (expectChar '-' pmo.2).bind (fun r4 =>
          (parseFixedDec 2 r4).bind (fun pd =>
            (expectChar 'T' pd.2).bind (fun r6 =>
              (parseFixedDec 2 r6).bind (fun ph =>
                (expectChar ':' ph.2).bind (fun r8 =>
                  (parseFixedDec 2 r8).bind (fun pmi =>
                    (expectChar ':' pmi.2).bind (fun r10 =>
                      (parseFixedDec 2 r10).bind (fun ps =>
                        (match ps.2 with
                         | '.' :: rf => parseFixedDec 6 rf
                         | other => some (0, other)).bind (fun pus =>
                          if validYmdHms py.1 pmo.1 pd.1 ph.1 pmi.1 ps.1 pus.1 then
                            parseIsoTz py.1 pmo.1 pd.1 ph.1 pmi.1 ps.1 pus.1 pus.2
                          else none))))))))))))

/-- `datetime.fromisoformat`. -/
def fromisoformat (s : String) : Option DateTime := parseIsoChars s.data

theorem expectChar_self (c : Char) (r : List Char) : expectChar c (c :: r) = some r := by
  simp [expectChar]

theorem parseFixedDec_fixedDec_nil (w n : Nat) (h : n < 10 ^ w) :
    parseFixedDec w (fixedDec w n) = some (n, []) := by
  have := parseFixedDec_fixedDec w n [] h
  rwa [List.append_nil] at this

theorem parseIsoTz_tzChars (y mo d h mi s us : Nat) (tz : Option Int)
    (htz : ∀ o ∈ tz, o.natAbs ≤ 1439) :
    parseIsoTz y mo d h mi s us (tzChars tz) = some ⟨y, mo, d, h, mi, s, us, tz⟩ := by
  cases tz with
  | none => rfl
  | some o =>
    have hb : o.natAbs ≤ 1439 := htz o rfl
    have hdiv : o.natAbs / 60 < 10 ^ 2 := by omega
    have hmod : o.natAbs % 60 < 10 ^ 2 := by omega
    by_cases ho : o < 0
    · rw [tzChars, if_pos ho, parseIsoTz,
        parseFixedDec_fixedDec 2 (o.natAbs / 60) _ hdiv, Option.some_bind,
        expectChar_self, Option.some_bind,
        parseFixedDec_fixedDec_nil 2 (o.natAbs % 60) hmod, Option.some_bind,
        if_pos ⟨rfl, by omega, by omega⟩]
      have harith : (-((o.natAbs / 60 : Nat) * 60 + (o.natAbs % 60 : Nat) : Int)) = o := by
        omega
      rw [harith]
    · rw [tzChars, if_neg ho, parseIsoTz,
        parseFixedDec_fixedDec 2 (o.natAbs / 60) _ hdiv, Option.some_bind,
        expectChar_self, Option.some_bind,
        parseFixedDec_fixedDec_nil 2 (o.natAbs % 60) hmod, Option.some_bind,
        if_pos ⟨rfl, by omega, by omega⟩]
      have harith : (((o.natAbs / 60 : Nat) * 60 + (o.natAbs % 60 : Nat) : Int)) = o := by
        omega
      rw [harith]

theorem daysInMonth_le (y m : Nat) : daysInMonth y m ≤ 31 := by
  unfold daysInMonth
  split_ifs <;> omega

theorem tzChars_head_not_dot (tz : Option Int) :
    ∀ c cs, tzChars tz = c :: cs → c ≠ '.' := by
  cases tz with
  | none => intro c cs h; simp [tzChars] at h
  | some o =>
    intro c cs h
    rw [tzChars] at h
    by_cases ho : o < 0 <;> simp [ho] at h <;> simp [← h.1]

theorem fromisoformat_isoformat (t : DateTime) (h : t.Valid) :
    fromisoformat (isoformat t) = some t := by
  obtain ⟨y, mo, d, hh, mi, s, us, tz⟩ := t
  obtain ⟨h1, h2⟩ := h
  have hb := h1
  simp only [validYmdHms, Bool.and_eq_true, decide_eq_true_eq] at hb
  obtain ⟨⟨⟨⟨⟨⟨⟨⟨⟨hy1, hy2⟩, hmo1⟩, hmo2⟩, hd1⟩, hd2⟩, hhh⟩, hmib⟩, hsb⟩, husb⟩ := hb
  dsimp only at h1 h2
  show parseIsoChars (isoChars ⟨y, mo, d, hh, mi, s, us, tz⟩) = _
  rw [isoChars]
  dsimp only
  simp only [List.append_assoc, List.cons_append]
  rw [parseIsoChars,
    parseFixedDec_fixedDec 4 y _ (by norm_num; omega), Option.some_bind,
    expectChar_self, Option.some_bind,
    parseFixedDec_fixedDec 2 mo _ (by norm_num; omega), Option.some_bind,
    expectChar_self, Option.some_bind,
    parseFixedDec_fixedDec 2 d _ (by have := daysInMonth_le y mo; norm_num; omega),
    Option.some_bind,
    expectChar_self, Option.some_bind,
    parseFixedDec_fixedDec 2 hh _ (by norm_num; omega), Option.some_bind,
    expectChar_self, Option.some_bind,
    parseFixedDec_fixedDec 2 mi _ (by norm_num; omega), Option.some_bind,
    expectChar_self, Option.some_bind,
    parseFixedDec_fixedDec 2 s _ (by norm_num; omega), Option.some_bind]
  by_cases hus : us = 0
  · subst hus
    rw [usChars, if_pos rfl, List.nil_append]
    have hmatch : (match tzChars tz with
        | '.' :: rf => parseFixedDec 6 rf
        | other => some (0, other)) = some (0, tzChars tz) := by
      cases htzc : tzChars tz with
      | nil => rfl
      | cons c cs =>
        have hne := tzChars_head_not_dot tz c cs htzc
        have hstep : (match c :: cs with
            | '.' :: rf => parseFixedDec 6 rf
            | other => some (0, other))
            = (some (0, c :: cs) : Option (Nat × List Char)) := by
          split
          · rename_i rf heq
            exact absurd (List.head_eq_of_cons_eq heq) hne
          · rfl
        rw [hstep]
    rw [hmatch, Option.some_bind, if_pos h1]
    exact parseIsoTz_tzChars y mo d hh mi s 0 tz h2
  · rw [usChars, if_neg hus, List.cons_append]
    show (match '.' :: (fixedDec 6 us ++ tzChars tz) with
        | '.' :: rf => parseFixedDec 6 rf
        | other => some (0, other)).bind _ = _
    rw [show (match '.' :: (fixedDec 6 us ++ tzChars tz) with
        | '.' :: rf => parseFixedDec 6 rf
        | other => some (0, other)) = parseFixedDec 6 (fixedDec 6 us ++ tzChars tz) from rfl,
      parseFixedDec_fixedDec 6 us _ (by norm_num; omega), Option.some_bind, if_pos h1]
    exact parseIsoTz_tzChars y mo d hh mi s us tz h2

/-- A `PomodoroSession` object (`utils/session_manager.py`), with
Python attribute names and types (`duration_minutes` and
`interruptions` are unbounded Python ints). -/
structure PomodoroSession where
  session_id : String
  session_type : String
  duration_minutes : Int
  task_description : String
  start_time : DateTime
  end_time : Option DateTime
  completed : Bool
  interruptions : Int
deriving DecidableEq, Repr

/-- `PomodoroSession.__init__`: the freshly generated uuid and the
current time are impure and passed as parameters; all other fields get
the constructor's fixed initial values. -/
def initSession (generated_id : String) (now : DateTime)
    (session_type : String) (duration : Int) (task_description : String) :
    PomodoroSession :=
  { session_id := generated_id
    session_type := session_type
    duration_minutes := duration
    task_description := task_description
    start_time := now
    end_time := none
    completed := false
    interruptions := 0 }

/-- `PomodoroSession.complete_session` (the completion timestamp is the
impure `datetime.now`, passed as a parameter). -/
def complete_session (s : PomodoroSession) (now : DateTime) : PomodoroSession :=
  { s with completed := true, end_time := some now }

/-- `PomodoroSession.add_interruption`. -/
def add_interruption (s : PomodoroSession) : PomodoroSession :=
  { s with interruptions := s.interruptions + 1 }

/-- `validate_session_type`: membership of an arbitrary Python value in
the set literal `{'work', 'short_break', 'long_break'}`; a non-string
value (including `None`) is simply not a member, so the result is
`False` rather than an error. -/
def validate_session_type (v : JValue) : Bool :=
  v == .str "work" || v == .str "short_break" || v == .str "long_break"

/-- `PomodoroSession.validate`. -/
def PomodoroSession.validate (s : PomodoroSession) : Bool :=
  if ¬ validate_session_type (.str s.session_type) then false
  else if s.duration_minutes ≤ 0 then false
  else if s.interruptions < 0 then false
  else true

/-- `PomodoroSession.to_dict`: the dictionary literal from the source,
in its key order; datetimes are rendered with `isoformat` and a missing
`end_time` becomes `None`. -/
def to_dict (s : PomodoroSession) : List (String × JValue) :=
  [("session_id", .str s.session_id),
   ("session_type", .str s.session_type),
   ("duration_minutes", .int s.duration_minutes),
   ("task_description", .str s.task_description),
   ("start_time", .str (isoformat s.start_time)),
   ("end_time", match s.end_time with
                | some e => .str (isoformat e)
                | none => .null),
   ("completed", .bool s.completed),
   ("interruptions", .int s.interruptions)]

/-- Python `dict.get` / `dict[...]`: first matching key (keys are unique
in every dictionary the program builds). -/
def dictGet (d : List (String × JValue)) (k : String) : Option JValue :=
  match d with
  | [] => none
  | (k', v) :: t => if k' = k then some v else dictGet t k

/-- Python truthiness of the JSON scalar values. -/
def jTruthy : JValue → Bool
  | .null => false
  | .bool b => b
  | .int n => n != 0
  | .str s => s != ""

/-- Required string field: a missing key raises (`KeyError`), modelled
as `none`; dictionary values are modelled at the record's declared
types, so a value of the wrong shape is also modelled as a failure. -/
def getStr (d : List (String × JValue)) (k : String) : Option String :=
  match dictGet d k with
  | some (.str s) => some s
  | _ => none

/-- Required integer field. -/
def getInt (d : List (String × JValue)) (k : String) : Option Int :=
  match dictGet d k with
  | some (.int n) => some n
  | _ => none

/-- `data.get(k, default)` for a string field. -/
def getStrD (d : List (String × JValue)) (k : String) (dflt : String) : Option String :=
  match dictGet d k with
  | none => some dflt
  | some (.str s) => some s
  | some _ => none

/-- `data.get(k, default)` for a boolean field. -/
def getBoolD (d : List (String × JValue)) (k : String) (dflt : Bool) : Option Bool :=
  match dictGet d k with
  | none => some dflt
  | some (.bool b) => some b
  | some _ => none

/-- `data.get(k, default)` for an integer field. -/
def getIntD (d : List (String × JValue)) (k : String) (dflt : Int) : Option Int :=
  match dictGet d k with
  | none => some dflt
  | some (.int n) => some n
  | some _ => none

/-- `if data.get('end_time'): session.end_time = fromisoformat(...)`:
a missing or falsy value leaves `end_time` at `None`; a truthy value
must be a parseable ISO string, otherwise deserialization raises
(modelled as `none`). -/
def getEndTime (d : List (String × JValue)) : Option (Option DateTime) :=
  match dictGet d "end_time" with
  | none => some none
  | some v =>
    if jTruthy v then
      match v with
      | .str es => (fromisoformat es).map some
      | _ => none
    else some none

/-- `PomodoroSession.from_dict`. The Python code first calls the
constructor (whose generated uuid and timestamp are immediately
overwritten) and then assigns each field; any missing required key or
unparseable timestamp raises, modelled as `none`. -/
def from_dict (data : List (String × JValue)) : Option PomodoroSession := do
  let session_type ← getStr data "session_type"
  let duration ← getInt data "duration_minutes"
  let task_description ← getStrD data "task_description" ""
  let session_id ← getStr data "session_id"
  let start_raw ← getStr data "start_time"
  let start_time ← fromisoformat start_raw
  let end_time ← getEndTime data
  let completed ← getBoolD data "completed" false
  let interruptions ← getIntD data "interruptions" 0
  pure { session_id := session_id
         session_type := session_type
         duration_minutes := duration
         task_description := task_description
         start_time := start_time
         end_time := end_time
         completed := completed
         interruptions := interruptions }

/-- A session as every run of the program produces it: `validate` holds
(type in the enumeration, positive duration, non-negative interruption
count) and its timestamps are real `datetime` values. -/
def SessionValid (s : PomodoroSession) : Prop :=
  s.validate = true ∧ s.start_time.Valid ∧ (∀ e ∈ s.end_time, e.Valid)

instance (s : PomodoroSession) : Decidable (SessionValid s) := by
  unfold SessionValid
  infer_instance

theorem isoChars_ne_nil (t : DateTime) : isoChars t ≠ [] := by
  rw [isoChars]
  simp [fixedDec]

theorem isoformat_ne_empty (t : DateTime) : isoformat t ≠ "" := by
  rw [isoformat]
  intro hcontra
  exact isoChars_ne_nil t (congrArg String.data hcontra)

/-- Serialization round-trip at the dictionary level: `from_dict`
recovers every field of a valid session from its `to_dict` image. -/
theorem from_dict_to_dict (s : PomodoroSession) (h : SessionValid s) :
    from_dict (to_dict s) = some s := by
  obtain ⟨hval, hst, hend⟩ := h
  have g1 : getStr (to_dict s) "session_type" = some s.session_type := by
    simp [getStr, dictGet, to_dict]
  have g2 : getInt (to_dict s) "duration_minutes" = some s.duration_minutes := by
    simp [getInt, dictGet, to_dict]
  have g3 : getStrD (to_dict s) "task_description" "" = some s.task_description := by
    simp [getStrD, dictGet, to_dict]
  have g4 : getStr (to_dict s) "session_id" = some s.session_id := by
    simp [getStr, dictGet, to_dict]
  have g5 : getStr (to_dict s) "start_time" = some (isoformat s.start_time) := by
    simp [getStr, dictGet, to_dict]
  have g6 : getEndTime (to_dict s) = some s.end_time := by
    cases he : s.end_time with
    | none => simp [getEndTime, dictGet, to_dict, he, jTruthy]
    | some e =>
      have hva : e.Valid := hend e he
      have hne : isoformat e ≠ "" := isoformat_ne_empty e
      simp [getEndTime, dictGet, to_dict, he, jTruthy, hne,
        fromisoformat_isoformat e hva]
  have g7 : getBoolD (to_dict s) "completed" false = some s.completed := by
    simp [getBoolD, dictGet, to_dict]
  have g8 : getIntD (to_dict s) "interruptions" 0 = some s.interruptions := by
    simp [getIntD, dictGet, to_dict]
  rw [from_dict]
  simp only [g1, g2, g3, g4, g5, g6, g7, g8,
    fromisoformat_isoformat s.start_time hst, Option.bind_eq_bind, Option.some_bind,
    Option.pure_def]

/-- `create_log_entry`: `json.dumps(session.to_dict(), separators=(',', ':'))`. -/
def create_log_entry (s : PomodoroSession) : String :=
  pyDumps (to_dict s)

/-- `parse_log_entry`: `json.loads` then `from_dict`, with every
exception (bad JSON, non-object document, missing key, bad timestamp)
caught and turned into `None`. -/
def parse_log_entry (line : String) : Option PomodoroSession :=
  match pyLoads line with
  | some (.obj m) => from_dict m
  | _ => none

/-- Python whitespace stripped by `str.strip` (ASCII subset; the
program's lines contain no other whitespace). -/
def isPySpace (c : Char) : Bool :=
  c = ' ' || c = '\t' || c = '\n' || c = '\x0d' || c = '\x0b' || c = '\x0c'

/-- `str.strip()`. -/
def pyStrip (s : String) : String :=
  ⟨((s.data.dropWhile isPySpace).reverse.dropWhile isPySpace).reverse⟩

/-- Python's `lines[-limit:]` on a list of lines, for a non-negative
`limit`; note `-0 == 0`, so limit 0 selects the whole list. -/
def pySliceLast (l : List String) (k : Nat) : List String :=
  if k = 0 then l else l.drop (l.length - k)

/-- The log file as `SessionLogger` sees it: `none` when the file does
not exist, otherwise its lines (each written line is newline-terminated,
so the file is exactly a list of lines). -/
def read_sessions (file : Option (List String)) (limit : Nat) : List PomodoroSession :=
  match file with
  | none => []
  | some lines =>
    let recent_lines := if lines.length > limit then pySliceLast lines limit else lines
    recent_lines.reverse.filterMap (fun line =>
      let l := pyStrip line
      if l = "" then none else parse_log_entry l)

/-- `log_session`: append one serialized line (opening in append mode
creates the file when missing); returns the new file contents. -/
def log_session (file : Option (List String)) (s : PomodoroSession) : List String :=
  file.getD [] ++ [create_log_entry s]

theorem pyStrip_of_ends (a : Char) (mid : List Char) (b : Char)
    (ha : isPySpace a = false) (hb : isPySpace b = false) :
    pyStrip ⟨a :: (mid ++ [b])⟩ = ⟨a :: (mid ++ [b])⟩ := by
  rw [pyStrip]
  congr 1
  show ((((a :: (mid ++ [b])).dropWhile isPySpace).reverse.dropWhile isPySpace)).reverse
    = a :: (mid ++ [b])
  rw [List.dropWhile_cons]
  simp only [ha, Bool.false_eq_true, if_false, List.reverse_cons, List.reverse_append,
    List.reverse_cons, List.reverse_nil, List.nil_append, List.cons_append,
    List.dropWhile_cons, hb]
  simp

theorem create_log_entry_shape (s : PomodoroSession) :
    create_log_entry s = ⟨'{' :: (dumpMembers (to_dict s) ++ ['}'])⟩ := rfl

theorem pyStrip_create_log_entry (s : PomodoroSession) :
    pyStrip (create_log_entry s) = create_log_entry s := by
  rw [create_log_entry_shape]
  have : dumpMembers (to_dict s) ++ ['}']
      = (dumpMembers (to_dict s)) ++ ['}'] := rfl
  rw [show ('{' :: (dumpMembers (to_dict s) ++ ['}'])) = '{' :: (dumpMembers (to_dict s) ++ ['}']) from rfl]
  exact pyStrip_of_ends '{' (dumpMembers (to_dict s)) '}' (by decide) (by decide)

theorem create_log_entry_ne_empty (s : PomodoroSession) :
    create_log_entry s ≠ "" := by
  intro hcontra
  have := congrArg String.data hcontra
  simp [create_log_entry, pyDumps] at this

theorem parse_log_entry_create (s : PomodoroSession) (h : SessionValid s) :
    parse_log_entry (create_log_entry s) = some s := by
  rw [parse_log_entry, create_log_entry,
    pyLoads_pyDumps (to_dict s) (by simp [to_dict])]
  exact from_dict_to_dict s h

/-- The per-line reader used inside `read_sessions`: strip, skip blanks,
parse, skip failures. -/
def readLine (line : String) : Option PomodoroSession :=
  let l := pyStrip line
  if l = "" then none else parse_log_entry l

theorem readLine_create (s : PomodoroSession) (h : SessionValid s) :
    readLine (create_log_entry s) = some s := by
  rw [readLine, pyStrip_create_log_entry]
  simp only [create_log_entry_ne_empty s, if_false]
  exact parse_log_entry_create s h

theorem read_sessions_eq_readLine (file : Option (List String)) (limit : Nat) :
    read_sessions file limit
      = match file with
        | none => []
        | some lines =>
          (if lines.length > limit then pySliceLast lines limit else lines).reverse.filterMap
            readLine := rfl

theorem filterMap_id_of {α β : Type} (h : α → Option β) (g : α → β) (l : List α)
    (H : ∀ x ∈ l, h x = some (g x)) : l.filterMap h = l.map g := by
  induction l with
  | nil => rfl
  | cons a t ih =>
    rw [List.filterMap_cons, H a (by simp), List.map_cons,
      ih (fun x hx => H x (by simp [hx]))]

theorem reverse_drop_eq_take_reverse {α : Type} (l : List α) (n : Nat) :
    (l.drop n).reverse = l.reverse.take (l.length - n) := by
  induction l generalizing n with
  | nil => simp
  | cons a t ih =>
    cases n with
    | zero => simp
    | succ m =>
      rw [List.drop_succ_cons, ih m, List.length_cons, List.reverse_cons,
        Nat.succ_sub_succ]
      rw [List.take_append_of_le_length (by simp)]

/-- The pieces of filesystem state `rotate_log_if_needed` touches:
file sizes by name, plus failure injection for the two `os` calls the
`try` block performs (`stat` and `rename`), whose exceptions the code
catches. -/
structure FSState where
  files : List (String × Nat)
  statFails : Bool
  renameFails : Bool
deriving DecidableEq, Repr

/-- File size by name (`none` when the path does not exist). -/
def fsGet (files : List (String × Nat)) (n : String) : Option Nat :=
  match files with
  | [] => none
  | (k, v) :: t => if k = n then some v else fsGet t n

/-- `os.rename`: the source entry disappears and the destination is
overwritten with the source's content. -/
def fsRename (files : List (String × Nat)) (src dst : String) (size : Nat) :
    List (String × Nat) :=
  files.filter (fun kv => ¬(kv.1 = src ∨ kv.1 = dst)) ++ [(dst, size)]

/-- Index of the last `'.'` in a name, if any. -/
def lastDotIdx (l : List Char) : Option Nat :=
  (l.reverse.findIdx? (· = '.')).map (fun j => l.length - 1 - j)

/-- `pathlib.PurePath.with_suffix` on a file name (the rename target is
a sibling, so paths are modelled by their final component): the suffix
(text from the last dot, when that dot is neither leading nor trailing)
is replaced, otherwise the new suffix is appended. -/
def pyWithSuffix (nm suf : String) : String :=
  let cs := nm.data
  match lastDotIdx cs with
  | some i => if 0 < i ∧ i < cs.length - 1 then ⟨cs.take i ++ suf.data⟩ else ⟨cs ++ suf.data⟩
  | none => ⟨cs ++ suf.data⟩

/-- `SessionLogger.rotate_log_if_needed`: success when the file is
missing; when it exists and exceeds 10 MiB, rename it to
`with_suffix('.log.old')`; any exception from the size check or the
rename is caught and reported as `False`. -/
def rotate_log_if_needed (name : String) (fs : FSState) : Bool × FSState :=
  match fsGet fs.files name with
  | none => (true, fs)
  | some size =>
    if fs.statFails then (false, fs)
    else if size > 10 * 1024 * 1024 then
      if fs.renameFails then (false, fs)
      else (true, { fs with
        files := fsRename fs.files name (pyWithSuffix name ".log.old") size })
    else (true, fs)

/-- Cumulative days before month `m` in year `y` (`datetime`'s
`_days_before_month`). -/
def daysBeforeMonth (y m : Nat) : Nat :=
  (match m with
   | 1 => 0 | 2 => 31 | 3 => 59 | 4 => 90 | 5 => 120 | 6 => 151
   | 7 => 181 | 8 => 212 | 9 => 243 | 10 => 273 | 11 => 304 | _ => 334)
  + (if 2 < m ∧ isLeap y then 1 else 0)

/-- `date.toordinal()`: day number with 0001-01-01 as day 1
(`datetime`'s `_ymd2ord`). -/
def toOrdinal (y m d : Nat) : Nat :=
  365 * (y - 1) + (y - 1) / 4 - (y - 1) / 100 + (y - 1) / 400 + daysBeforeMonth y m + d

/-- `datetime.date()` as an ordinal; Python compares and subtracts
`date` objects exactly as their ordinals compare and subtract. -/
def DateTime.dateOrdinal (t : DateTime) : Nat :=
  toOrdinal t.year t.month t.day

/-- `date.fromordinal`: ordinal back to year-month-day (standard
civil-from-days computation, shifted to March-based years). -/
def ordinalToYmd (n : Nat) : Nat × Nat × Nat :=
  let days := (n - 1) + 306
  let era := days / 146097
  let doe := days % 146097
  let yoe := (doe - doe / 1460 + doe / 36524 - doe / 146096) / 365
  let doy := doe - (365 * yoe + yoe / 4 - yoe / 100)
  let mp := (5 * doy + 2) / 153
  let d := doy - (153 * mp + 2) / 5 + 1
  let m := if mp < 10 then mp + 3 else mp - 9
  let y := yoe + era * 400 + (if m ≤ 2 then 1 else 0)
  (y, m, d)

/-- `date.isoformat()` for the ordinal `n`. -/
def ordinalToIso (n : Nat) : String :=
  let ymd := ordinalToYmd n
  ⟨fixedDec 4 ymd.1 ++ '-' :: fixedDec 2 ymd.2.1 ++ '-' :: fixedDec 2 ymd.2.2⟩

/-- `date.weekday()`: 0 for Monday (ordinal 1, 0001-01-01, was a Monday). -/
def pyWeekday (d : Nat) : Nat := (d + 6) % 7

/-- `date.strftime('%A')`. -/
def weekdayName (d : Nat) : String :=
  match (d + 6) % 7 with
  | 0 => "Monday" | 1 => "Tuesday" | 2 => "Wednesday" | 3 => "Thursday"
  | 4 => "Friday" | 5 => "Saturday" | _ => "Sunday"

/-- Python `round(x, 1)` and float formatting round half to even; the
float arithmetic of `statistics.py` is modelled with exact rationals,
which agree with the float results at every magnitude the claims
mention. -/
def roundHalfEven (q : ℚ) : ℤ :=
  let f := ⌊q⌋
  if q - f < 1 / 2 then f
  else if q - f > 1 / 2 then f + 1
  else if f % 2 = 0 then f else f + 1

/-- `round(x, 1)`. -/
def pyRound1 (q : ℚ) : ℚ := (roundHalfEven (q * 10) : ℚ) / 10

/-- `'{:.1f}'.format(x)` (used only inside trend descriptions). -/
def pyFormat1 (q : ℚ) : String :=
  let m := roundHalfEven (q * 10)
  (if m < 0 then "-" else "") ++ toString (m.natAbs / 10) ++ "." ++ toString (m.natAbs % 10)

/-- The result dictionary of `get_productivity_trends`. -/
structure TrendResult where
  trend : String
  change : ℚ
  description : String
deriving DecidableEq, Repr

/-- `recent_sessions`: sessions of the trailing 14 days. -/
def recentSessions (today : Nat) (S : List PomodoroSession) : List PomodoroSession :=
  S.filter (fun s => today - 14 ≤ s.start_time.dateOrdinal)

/-- `last_week`: recent sessions strictly before `today - 7`. -/
def lastWeek (today : Nat) (S : List PomodoroSession) : List PomodoroSession :=
  (recentSessions today S).filter (fun s => s.start_time.dateOrdinal < today - 7)

/-- `this_week`: recent sessions from `today - 7` on. -/
def thisWeek (today : Nat) (S : List PomodoroSession) : List PomodoroSession :=
  (recentSessions today S).filter (fun s => today - 7 ≤ s.start_time.dateOrdinal)

/-- `get_productivity_trends` (`date.today()` is impure and passed as a
parameter, as an ordinal). -/
def get_productivity_trends (today : Nat) (S : List PomodoroSession) : TrendResult :=
  if S.isEmpty then ⟨"stable", 0, "No data available"⟩
  else
    let recent := recentSessions today S
    if recent.length < 2 then ⟨"stable", 0, "Insufficient data"⟩
    else
      let last_week_completed := (lastWeek today S).countP (·.completed)
      let this_week_completed := (thisWeek today S).countP (·.completed)
      if last_week_completed = 0 then
        if this_week_completed > 0 then ⟨"improving", 100, "Started completing sessions"⟩
        else ⟨"stable", 0, "No completed sessions"⟩
      else
        let change_percent : ℚ :=
          ((this_week_completed : ℚ) - (last_week_completed : ℚ))
            / (last_week_completed : ℚ) * 100
        if change_percent > 10 then
          ⟨"improving", pyRound1 change_percent,
            "Completed sessions increased by " ++ pyFormat1 change_percent ++ "%"⟩
        else if change_percent < -10 then
          ⟨"declining", pyRound1 change_percent,
            "Completed sessions decreased by " ++ pyFormat1 (-change_percent) ++ "%"⟩
        else ⟨"stable", pyRound1 change_percent, "Completion rate is stable"⟩

/-- The result dictionary of `get_peak_productivity_hours` (the
no-qualifying-sessions return carries no distribution key in the code,
modelled as the empty table). -/
structure PeakResult where
  peak_hour : Option Nat
  sessions_count : Nat
  hourly_distribution : List (Nat × Nat)
deriving DecidableEq, Repr

/-- `hourly_counts[hour] = hourly_counts.get(hour, 0) + 1`: a Python
dict keeps insertion order, so an existing key is bumped in place and a
new key is appended. -/
def bumpHour : List (Nat × Nat) → Nat → List (Nat × Nat)
  | [], h => [(h, 1)]
  | (k, v) :: t, h => if k = h then (k, v + 1) :: t else (k, v) :: bumpHour t h

/-- The hour histogram over completed work sessions, in insertion order. -/
def hourlyCounts (S : List PomodoroSession) : List (Nat × Nat) :=
  S.foldl
    (fun m s =>
      if s.session_type = "work" ∧ s.completed = true then bumpHour m s.start_time.hour
      else m)
    []

/-- One comparison step of `max(d, key=d.get)`: the best entry is
replaced only on a strictly greater value. -/
def pyMaxStep (best y : Nat × Nat) : Nat × Nat := if y.2 > best.2 then y else best

/-- `max(d, key=d.get)`: scan in iteration order, replacing the best
only on a strictly greater value, so the first maximum wins ties. -/
def pyMaxByVal : List (Nat × Nat) → Option (Nat × Nat)
  | [] => none
  | x :: t => some (t.foldl pyMaxStep x)

/-- Dictionary lookup in the hour histogram. -/
def lookupHour (m : List (Nat × Nat)) (k : Nat) : Option Nat :=
  match m with
  | [] => none
  | (k', v) :: t => if k' = k then some v else lookupHour t k

/-- `get_peak_productivity_hours`. -/
def get_peak_productivity_hours (S : List PomodoroSession) : PeakResult :=
  if S.isEmpty then ⟨none, 0, []⟩
  else
    let counts := hourlyCounts S
    match pyMaxByVal counts with
    | none => ⟨none, 0, []⟩
    | some kv => ⟨some kv.1, (lookupHour counts kv.1).getD 0, counts⟩

/-- Values of the statistics dictionaries (`daily_breakdown` nests a
per-day table of session and completed counts). -/
inductive StatValue where
  | int : Int → StatValue
  | rat : ℚ → StatValue
  | str : String → StatValue
  | table : List (String × Int × Int) → StatValue
deriving DecidableEq, Repr

/-- `create_empty_stats`. -/
def create_empty_stats : List (String × StatValue) :=
  [("total_sessions", .int 0), ("completed_sessions", .int 0),
   ("total_focus_minutes", .int 0), ("completion_rate", .rat 0)]

/-- Lookup in a statistics dictionary. -/
def statGet (d : List (String × StatValue)) (k : String) : Option StatValue :=
  match d with
  | [] => none
  | (k', v) :: t => if k' = k then some v else statGet t k

/-- `calculate_weekly_stats` (`date.today()` passed as an ordinal). -/
def calculate_weekly_stats (today : Nat) (S : List PomodoroSession) :
    List (String × StatValue) :=
  if S.isEmpty then create_empty_stats
  else
    let week_start := today - pyWeekday today
    let week_sessions := S.filter (fun s =>
      week_start ≤ s.start_time.dateOrdinal ∧ s.start_time.dateOrdinal ≤ today)
    let total_sessions := week_sessions.length
    let completed_sessions := week_sessions.countP (·.completed)
    let work_sessions := week_sessions.filter (fun s =>
      s.session_type = "work" ∧ s.completed = true)
    let total_focus_time := (work_sessions.map (·.duration_minutes)).sum
    let completion_rate : ℚ :=
      if total_sessions > 0 then (completed_sessions : ℚ) / (total_sessions : ℚ) * 100 else 0
    let daily_breakdown := (List.range 7).map (fun i =>
      let day := week_start + i
      let day_sessions := week_sessions.filter (fun s => s.start_time.dateOrdinal = day)
      (weekdayName day,
        ((day_sessions.length : Int), (day_sessions.countP (·.completed) : Int))))
    [("week_start", .str (ordinalToIso week_start)),
     ("total_sessions", .int total_sessions),
     ("completed_sessions", .int completed_sessions),
     ("total_focus_minutes", .int total_focus_time),
     ("completion_rate", .rat (pyRound1 completion_rate)),
     ("daily_breakdown", .table daily_breakdown)]

/-- A concrete valid session used to instantiate hypotheses: work type,
positive duration, a Unicode description with embedded quotes and an
astral glyph, aware UTC timestamps, completed with an end time. -/
def exSession : PomodoroSession :=
  { session_id := "f47ac10b-58cc-4372-a567-0e02b2c3d479"
    session_type := "work"
    duration_minutes := 25
    task_description := "Write \"report\" for Raphaël 𝄞"
    start_time := ⟨2026, 10, 12, 9, 30, 0, 0, some 0⟩
    end_time := some ⟨2026, 10, 12, 9, 55, 0, 500000, some 0⟩
    completed := true
    interruptions := 2 }

/-- A second concrete valid session: a pending short break. -/
def exSession2 : PomodoroSession :=
  { session_id := "9b2c7c1e-0f43-4f8a-9d3e-2a6b5c4d7e8f"
    session_type := "short_break"
    duration_minutes := 5
    task_description := ""
    start_time := ⟨2026, 10, 12, 10, 0, 0, 123456, some 0⟩
    end_time := none
    completed := false
    interruptions := 0 }

/-- C9: `validate_session_type(value)` returns true exactly for the
three enumerated strings (case-sensitive), and false — never an
error — for every other value, `None` and non-strings included. -/
theorem claim_C9_validate_session_type (v : JValue) :
    validate_session_type v = true ↔
      (v = .str "work" ∨ v = .str "short_break" ∨ v = .str "long_break") := by
  cases v <;> simp [validate_session_type, or_assoc]

/-- C9 witness: the three members, and `None` (null), a non-string and a
case-variant are rejected. -/
theorem claim_C9_witness :
    ((JValue.str "work" = .str "work" ∨ JValue.str "work" = .str "short_break" ∨
        JValue.str "work" = .str "long_break") ∧
      validate_session_type (.str "work") = true) ∧
    validate_session_type .null = false ∧
    validate_session_type (.int 3) = false ∧
    validate_session_type (.str "Work") = false := by
  refine ⟨⟨Or.inl rfl, ?_⟩, by decide, by decide, by decide⟩
  exact (claim_C9_validate_session_type (.str "work")).mpr (Or.inl rfl)

/-- C1: for every valid session (type in the enumeration, positive
duration, arbitrary Unicode description with embedded quotes, with or
without an end time), `from_dict (to_dict s)` reproduces the session on
every field. -/
theorem claim_C1_roundtrip (s : PomodoroSession) (h : SessionValid s) :
    from_dict (to_dict s) = some s :=
  from_dict_to_dict s h

set_option maxRecDepth 100000 in
/-- C1 witness: the round trip at a concrete completed work session
whose description holds quotes and multi-byte glyphs. -/
theorem claim_C1_witness :
    SessionValid exSession ∧ from_dict (to_dict exSession) = some exSession :=
  ⟨by decide, claim_C1_roundtrip exSession (by decide)⟩

/-- The completion invariant of the data model. -/
def completionInvariant (s : PomodoroSession) : Prop :=
  s.completed = true ↔ s.end_time ≠ none

instance (s : PomodoroSession) : Decidable (completionInvariant s) := by
  unfold completionInvariant
  infer_instance

/-- A dictionary whose `completed` flag agrees with the presence of a
truthy `end_time` value. Serialized invariant-satisfying sessions have
this property; an arbitrary dictionary need not. -/
def dictCompletionConsistent (d : List (String × JValue)) : Prop :=
  getBoolD d "completed" false = some true ↔
    (∃ v, dictGet d "end_time" = some v ∧ jTruthy v = true)

/-- A dictionary exercising `from_dict` with `completed = true` and no
`end_time` key. -/
def c3dict : List (String × JValue) :=
  [("session_type", .str "work"), ("duration_minutes", .int 25),
   ("session_id", .str "sid-1"),
   ("start_time", .str "2026-10-12T09:30:00+00:00"),
   ("completed", .bool true)]

set_option maxRecDepth 100000 in
/-- C3 counterexample: `from_dict` deserializes `c3dict` into a session
with `completed = true` and `end_time = None`, so the invariant does not
hold for every session reachable through `from_dict` on arbitrary
dictionaries. -/
theorem claim_C3_counterexample :
    (from_dict c3dict).map (fun s => (s.completed, s.end_time))
      = some (true, (none : Option DateTime)) := by
  decide

/-- C3 (amended): the invariant `completed = true ↔ end_time ≠ None`
holds for sessions built by the constructor, after `complete_session`,
is preserved by `add_interruption`, and holds for `from_dict` output
whenever the input dictionary's `completed` flag agrees with the
presence of a truthy `end_time` — but not for `from_dict` of arbitrary
dictionaries. -/
theorem claim_C3_completion_invariant :
    (∀ gid now stype dur desc, completionInvariant (initSession gid now stype dur desc)) ∧
    (∀ s now, completionInvariant (complete_session s now)) ∧
    (∀ s, completionInvariant s → completionInvariant (add_interruption s)) ∧
    (∀ d s, from_dict d = some s → dictCompletionConsistent d → completionInvariant s) := by
  refine ⟨?_, ?_, ?_, ?_⟩
  · intro gid now stype dur desc
    simp [completionInvariant, initSession]
  · intro s now
    simp [completionInvariant, complete_session]
  · intro s h
    simpa [completionInvariant, add_interruption] using h
  · intro d s hfd hcons
    rw [from_dict] at hfd
    simp only [Option.bind_eq_bind, Option.bind_eq_some, Option.pure_def,
      Option.some.injEq] at hfd
    obtain ⟨stype, h1, dur, h2, desc, h3, sid, h4, sraw, h5, stime, h6,
      etime, h7, comp, h8, inter, h9, hs⟩ := hfd
    subst hs
    rw [completionInvariant]
    simp only
    constructor
    · intro hc
      subst hc
      obtain ⟨v, hv, htr⟩ := hcons.mp h8
      rw [getEndTime, hv] at h7
      simp only [htr, if_true] at h7
      cases v with
      | null => simp [jTruthy] at htr
      | bool b => simp at h7
      | int n => simp at h7
      | str es =>
        simp only [Option.map_eq_some'] at h7
        obtain ⟨dt, _, hdt⟩ := h7
        simp [← hdt]
    · intro hne
      by_contra hc
      have hcomp : comp = false := by
        cases comp
        · rfl
        · exact absurd rfl hc
      subst hcomp
      rw [getEndTime] at h7
      cases hv : dictGet d "end_time" with
      | none => rw [hv] at h7; simp at h7; exact hne h7.symm
      | some v =>
        rw [hv] at h7
        by_cases htr : jTruthy v = true
        · have : getBoolD d "completed" false = some true := hcons.mpr ⟨v, hv, htr⟩
          rw [h8] at this
          simp at this
        · simp only [htr, Bool.false_eq_true, if_false] at h7
          have := Bool.of_not_eq_true htr
          simp at h7
          exact hne h7.symm

set_option maxRecDepth 100000 in
/-- C3 witness: the invariant after a constructor call, a completion, an
interruption, and a `from_dict` of a consistent dictionary. -/
theorem claim_C3_witness :
    completionInvariant (initSession "sid-2" ⟨2026, 10, 12, 9, 0, 0, 0, some 0⟩ "work" 25 "") ∧
    completionInvariant (complete_session exSession2 ⟨2026, 10, 12, 10, 5, 0, 0, some 0⟩) ∧
    completionInvariant (add_interruption exSession) ∧
    (from_dict (to_dict exSession2) = some exSession2 →
      dictCompletionConsistent (to_dict exSession2) → completionInvariant exSession2) := by
  exact ⟨claim_C3_completion_invariant.1 "sid-2" _ "work" 25 "",
    claim_C3_completion_invariant.2.1 exSession2 _,
    claim_C3_completion_invariant.2.2.1 exSession (by decide),
    claim_C3_completion_invariant.2.2.2 (to_dict exSession2) exSession2⟩

/-- A filesystem with an oversized log whose name does not end in
`.log`. -/
def fsTxt : FSState := ⟨[("sessions.txt", 10485761)], false, false⟩

/-- C7 counterexample: `with_suffix('.log.old')` replaces an existing
suffix instead of appending, so an oversized resource named
`sessions.txt` is renamed to `sessions.log.old`, not to the sibling
`sessions.txt.old` the claim describes. -/
theorem claim_C7_counterexample :
    (rotate_log_if_needed "sessions.txt" fsTxt).1 = true ∧
    fsGet (rotate_log_if_needed "sessions.txt" fsTxt).2.files ("sessions.txt" ++ ".old") = none ∧
    fsGet (rotate_log_if_needed "sessions.txt" fsTxt).2.files "sessions.log.old"
      = some 10485761 := by
  decide

/-- C7 (amended): rotation succeeds when the resource is missing; an
existing resource over 10 MiB is renamed (overwriting any prior
rotation target) to `with_suffix('.log.old')` of its name — which
equals the name plus `.old` exactly when the name already ends in
`.log` with a nonempty stem, as the program's log files do; and a
failing size check or rename yields `False` instead of an exception. -/
theorem claim_C7_rotation :
    (∀ name fs, fsGet fs.files name = none → rotate_log_if_needed name fs = (true, fs)) ∧
    (∀ name fs size, fsGet fs.files name = some size → fs.statFails = false →
      fs.renameFails = false → size > 10 * 1024 * 1024 →
      rotate_log_if_needed name fs
        = (true, { fs with
            files := fsRename fs.files name (pyWithSuffix name ".log.old") size })) ∧
    (∀ name fs size, fsGet fs.files name = some size → fs.statFails = true →
      rotate_log_if_needed name fs = (false, fs)) ∧
    (∀ name fs size, fsGet fs.files name = some size → fs.statFails = false →
      fs.renameFails = true → size > 10 * 1024 * 1024 →
      rotate_log_if_needed name fs = (false, fs)) ∧
    (∀ stem : List Char, stem ≠ [] →
      pyWithSuffix ⟨stem ++ ('.' :: 'l' :: 'o' :: 'g' :: [])⟩ ".log.old"
        = (⟨stem ++ ('.' :: 'l' :: 'o' :: 'g' :: [])⟩ : String) ++ ".old") := by
  refine ⟨?_, ?_, ?_, ?_, ?_⟩
  · intro name fs h
    rw [rotate_log_if_needed, h]
  · intro name fs size h hstat hren hsz
    rw [rotate_log_if_needed, h, hstat]
    simp only [Bool.false_eq_true, if_false, if_pos hsz, hren]
  · intro name fs size h hstat
    rw [rotate_log_if_needed, h, hstat]
    simp
  · intro name fs size h hstat hren hsz
    rw [rotate_log_if_needed, h, hstat, hren]
    simp [hsz]
  · intro stem hne
    have hidx : lastDotIdx (stem ++ ('.' :: 'l' :: 'o' :: 'g' :: [])) = some stem.length := by
      rw [lastDotIdx, List.reverse_append]
      rw [show ('.' :: 'l' :: 'o' :: 'g' :: []).reverse = 'g' :: 'o' :: 'l' :: '.' :: [] from rfl]
      rw [show ('g' :: 'o' :: 'l' :: '.' :: []) ++ stem.reverse
          = 'g' :: 'o' :: 'l' :: '.' :: stem.reverse from rfl]
      simp only [List.findIdx?_cons]
      norm_num
      exact ⟨3, by decide, by omega⟩
    rw [pyWithSuffix]
    rw [hidx]
    have hlen : (stem ++ ('.' :: 'l' :: 'o' :: 'g' :: [])).length = stem.length + 4 := by
      simp
    have hpos : 0 < stem.length := List.length_pos.mpr hne
    show (if 0 < stem.length ∧ stem.length < (stem ++ ('.' :: 'l' :: 'o' :: 'g' :: [])).length - 1
      then (⟨(stem ++ ('.' :: 'l' :: 'o' :: 'g' :: [])).take stem.length
        ++ (".log.old").data⟩ : String)
      else ⟨(stem ++ ('.' :: 'l' :: 'o' :: 'g' :: [])) ++ (".log.old").data⟩) = _
    rw [if_pos ⟨hpos, by omega⟩]
    rw [List.take_left]
    show (⟨stem ++ ('.' :: 'l' :: 'o' :: 'g' :: '.' :: 'o' :: 'l' :: 'd' :: [])⟩ : String)
      = ⟨(stem ++ ('.' :: 'l' :: 'o' :: 'g' :: [])) ++ ('.' :: 'o' :: 'l' :: 'd' :: [])⟩
    congr 1
    simp

set_option maxRecDepth 100000 in
/-- C7 witness: the default log name rotates to its `.old` sibling, a
missing resource reports success, and injected failures report failure. -/
theorem claim_C7_witness :
    rotate_log_if_needed "pomodoro_sessions.log" ⟨[], false, false⟩ = (true, ⟨[], false, false⟩) ∧
    rotate_log_if_needed "pomodoro_sessions.log"
        ⟨[("pomodoro_sessions.log", 10485761)], false, false⟩
      = (true, ⟨[("pomodoro_sessions.log.old", 10485761)], false, false⟩) ∧
    rotate_log_if_needed "pomodoro_sessions.log"
        ⟨[("pomodoro_sessions.log", 10485761)], true, false⟩
      = (false, ⟨[("pomodoro_sessions.log", 10485761)], true, false⟩) ∧
    rotate_log_if_needed "pomodoro_sessions.log"
        ⟨[("pomodoro_sessions.log", 10485761)], false, true⟩
      = (false, ⟨[("pomodoro_sessions.log", 10485761)], false, true⟩) ∧
    pyWithSuffix ⟨"pomodoro_sessions".data ++ ('.' :: 'l' :: 'o' :: 'g' :: [])⟩ ".log.old"
      = (⟨"pomodoro_sessions".data ++ ('.' :: 'l' :: 'o' :: 'g' :: [])⟩ : String) ++ ".old" := by
  refine ⟨claim_C7_rotation.1 "pomodoro_sessions.log" _ (by decide), ?_, ?_, ?_,
    claim_C7_rotation.2.2.2.2 ("pomodoro_sessions".data) (by decide)⟩
  · have h := claim_C7_rotation.2.1 "pomodoro_sessions.log"
      ⟨[("pomodoro_sessions.log", 10485761)], false, false⟩ 10485761
      (by decide) rfl rfl (by decide)
    rw [h]
    decide
  · exact claim_C7_rotation.2.2.1 "pomodoro_sessions.log" _ 10485761 (by decide) rfl
  · exact claim_C7_rotation.2.2.2.1 "pomodoro_sessions.log" _ 10485761 (by decide) rfl rfl
      (by decide)

theorem readLine_map_valid (L : List PomodoroSession) (hv : ∀ s ∈ L, SessionValid s) :
    (L.map create_log_entry).filterMap readLine = L := by
  rw [List.filterMap_map]
  have := filterMap_id_of (readLine ∘ create_log_entry) id L
    (fun x hx => readLine_create x (hv x hx))
  rw [this, List.map_id]

/-- C10: a limit of 0 selects every line (`lines[-0:]` is the whole
list), so `read_sessions` with limit 0 behaves like reading with the
file's own line count and returns all parseable sessions most-recent
first — not the empty list. -/
theorem claim_C10_limit_zero :
    (∀ lines : List String,
      read_sessions (some lines) 0 = read_sessions (some lines) lines.length) ∧
    (∀ S : List PomodoroSession, S ≠ [] → (∀ s ∈ S, SessionValid s) →
      read_sessions (some (S.map create_log_entry)) 0 = S.reverse ∧ S.reverse ≠ []) := by
  constructor
  · intro lines
    rw [read_sessions, read_sessions]
    simp [pySliceLast]
  · intro S hne hv
    constructor
    · rw [read_sessions]
      have hlen : (S.map create_log_entry).length = S.length := List.length_map _ _
      rw [if_pos (by rw [hlen]; exact Nat.pos_of_ne_zero (fun h => hne (List.length_eq_zero.mp h))),
        pySliceLast, if_pos rfl, ← List.map_reverse]
      exact readLine_map_valid S.reverse (fun s hs => hv s (List.mem_reverse.mp hs))
    · intro h
      exact hne (by simpa using congrArg List.reverse h)

set_option maxRecDepth 100000 in
/-- C10 witness: a one-line file read with limit 0 yields that session. -/
theorem claim_C10_witness :
    ([exSession] : List PomodoroSession) ≠ [] ∧
    (∀ s ∈ [exSession], SessionValid s) ∧
    read_sessions (some ([exSession].map create_log_entry)) 0 = [exSession] := by
  refine ⟨by decide, ?_, ?_⟩
  · intro s hs
    rw [List.mem_singleton.mp hs]
    decide
  · have h := (claim_C10_limit_zero.2 [exSession] (by decide)
      (fun s hs => by rw [List.mem_singleton.mp hs]; decide)).1
    simpa using h

set_option maxRecDepth 100000 in
/-- C2 counterexample: with one appended session, `read(limit=0)` (a
value of k with k < N) returns that session, not the `k = 0` most
recent (the empty list) the claim requires. -/
theorem claim_C2_counterexample :
    read_sessions (some [create_log_entry exSession]) 0 = [exSession] ∧
    read_sessions (some [create_log_entry exSession]) 0 ≠ [] := by
  constructor
  · decide
  · decide

/-- C2 (amended): after appending A, B, C in order, `read(limit=3)`
returns [C, B, A]; and after appending N sessions, `read(limit=k)` for
0 < k < N returns exactly the k most recently appended sessions,
most-recent first. (For k = 0 the slice `lines[-0:]` selects all lines,
see the limit-0 claim.) -/
theorem claim_C2_order_and_limit :
    (∀ A B C : PomodoroSession, SessionValid A → SessionValid B → SessionValid C →
      read_sessions
        (some (log_session (some (log_session (some (log_session none A)) B)) C)) 3
        = [C, B, A]) ∧
    (∀ (S : List PomodoroSession) (k : Nat), (∀ s ∈ S, SessionValid s) →
      0 < k → k < S.length →
      read_sessions (some (S.map create_log_entry)) k = S.reverse.take k) := by
  constructor
  · intro A B C hA hB hC
    show read_sessions
      (some [create_log_entry A, create_log_entry B, create_log_entry C]) 3 = [C, B, A]
    rw [read_sessions]
    rw [if_neg (by simp)]
    show ([create_log_entry A, create_log_entry B, create_log_entry C].reverse).filterMap
      readLine = [C, B, A]
    rw [show [create_log_entry A, create_log_entry B, create_log_entry C].reverse
        = [create_log_entry C, create_log_entry B, create_log_entry A] from by simp]
    rw [List.filterMap_cons, readLine_create C hC, List.filterMap_cons,
      readLine_create B hB, List.filterMap_cons, readLine_create A hA,
      List.filterMap_nil]
  · intro S k hv hk0 hkN
    rw [read_sessions]
    have hlen : (S.map create_log_entry).length = S.length := List.length_map _ _
    rw [if_pos (by omega : (S.map create_log_entry).length > k), pySliceLast,
      if_neg (by omega), hlen, ← List.map_drop, ← List.map_reverse]
    show ((S.drop (S.length - k)).reverse.map create_log_entry).filterMap readLine
      = S.reverse.take k
    rw [readLine_map_valid (S.drop (S.length - k)).reverse
      (fun s hs => hv s (List.mem_of_mem_drop (List.mem_reverse.mp hs)))]
    rw [reverse_drop_eq_take_reverse]
    congr 1
    omega

set_option maxRecDepth 100000 in
/-- C2 witness: three concrete appended sessions read back most-recent
first, and a 3-of-4 limited read. -/
theorem claim_C2_witness :
    read_sessions
        (some (log_session (some (log_session (some (log_session none exSession)) exSession2))
          exSession)) 3
      = [exSession, exSession2, exSession] ∧
    read_sessions
        (some ([exSession, exSession2, exSession, exSession2].map create_log_entry)) 3
      = [exSession2, exSession, exSession2] := by
  constructor
  · exact claim_C2_order_and_limit.1 exSession exSession2 exSession
      (by decide) (by decide) (by decide)
  · have h := claim_C2_order_and_limit.2 [exSession, exSession2, exSession, exSession2] 3
      (fun s hs => by
        rcases List.mem_cons.mp hs with rfl | hs2
        · decide
        rcases List.mem_cons.mp hs2 with rfl | hs3
        · decide
        rcases List.mem_cons.mp hs3 with rfl | hs4
        · decide
        rw [List.mem_singleton.mp hs4]
        decide)
      (by decide) (by decide)
    rw [h]
    decide

/-- C6: `read_sessions` skips blank lines and unparseable lines without
aborting — a file holding a blank line and a corrupt line between two
valid session lines reads back exactly the two sessions, most-recent
first — and a missing file yields the empty list, not an error. -/
theorem claim_C6_skip_corrupt (s1 s2 : PomodoroSession)
    (h1 : SessionValid s1) (h2 : SessionValid s2) :
    read_sessions
        (some [create_log_entry s1, "", "this line is not valid json", create_log_entry s2])
        100
      = [s2, s1] ∧
    read_sessions none 100 = [] := by
  constructor
  · rw [read_sessions]
    rw [if_neg (by simp)]
    show ([create_log_entry s1, "", "this line is not valid json",
      create_log_entry s2].reverse).filterMap readLine = [s2, s1]
    rw [show [create_log_entry s1, "", "this line is not valid json",
        create_log_entry s2].reverse
      = [create_log_entry s2, "this line is not valid json", "", create_log_entry s1] from by
        simp]
    rw [List.filterMap_cons, readLine_create s2 h2, List.filterMap_cons,
      show readLine "this line is not valid json" = none from by decide,
      List.filterMap_cons, show readLine "" = none from by decide,
      List.filterMap_cons, readLine_create s1 h1, List.filterMap_nil]
  · rfl

set_option maxRecDepth 100000 in
/-- C6 witness: concrete valid sessions around a blank and a corrupt
line. -/
theorem claim_C6_witness :
    SessionValid exSession ∧ SessionValid exSession2 ∧
    read_sessions
        (some [create_log_entry exSession, "", "this line is not valid json",
          create_log_entry exSession2]) 100
      = [exSession2, exSession] := by
  exact ⟨by decide, by decide,
    (claim_C6_skip_corrupt exSession exSession2 (by decide) (by decide)).1⟩

/-- C4 counterexample: `calculate_weekly_stats([])` returns the bare
four-key all-zero aggregates with no `daily_breakdown` key at all, so
the claimed always-present 7-weekday breakdown does not hold for empty
input. -/
theorem claim_C4_counterexample :
    calculate_weekly_stats (toOrdinal 2026 10 12) [] = create_empty_stats ∧
    statGet (calculate_weekly_stats (toOrdinal 2026 10 12) []) "daily_breakdown" = none := by
  constructor
  · decide
  · decide

theorem weekdayName_eq_getD (d k : Nat) (hk : k < 7) (h : (d + 6) % 7 = k) :
    weekdayName d
      = ["Monday", "Tuesday", "Wednesday", "Thursday", "Friday", "Saturday",
          "Sunday"].getD k "" := by
  rw [weekdayName, h]
  interval_cases k <;> rfl

theorem breakdown_names (today : Nat) (h1 : 1 ≤ today) :
    (List.range 7).map (fun i => weekdayName (today - pyWeekday today + i))
      = ["Monday", "Tuesday", "Wednesday", "Thursday", "Friday", "Saturday", "Sunday"] := by
  rw [show List.range 7 = [0, 1, 2, 3, 4, 5, 6] from by decide]
  simp only [List.map_cons, List.map_nil]
  rw [weekdayName_eq_getD (today - pyWeekday today + 0) 0 (by omega)
      (by unfold pyWeekday; omega),
    weekdayName_eq_getD (today - pyWeekday today + 1) 1 (by omega)
      (by unfold pyWeekday; omega),
    weekdayName_eq_getD (today - pyWeekday today + 2) 2 (by omega)
      (by unfold pyWeekday; omega),
    weekdayName_eq_getD (today - pyWeekday today + 3) 3 (by omega)
      (by unfold pyWeekday; omega),
    weekdayName_eq_getD (today - pyWeekday today + 4) 4 (by omega)
      (by unfold pyWeekday; omega),
    weekdayName_eq_getD (today - pyWeekday today + 5) 5 (by omega)
      (by unfold pyWeekday; omega),
    weekdayName_eq_getD (today - pyWeekday today + 6) 6 (by omega)
      (by unfold pyWeekday; omega)]
  rfl

theorem weekly_breakdown_get (today : Nat) (S : List PomodoroSession)
    (hSE : S.isEmpty = false) :
    statGet (calculate_weekly_stats today S) "daily_breakdown"
      = some (.table ((List.range 7).map (fun i =>
          (weekdayName (today - pyWeekday today + i),
            ((((S.filter (fun s =>
                today - pyWeekday today ≤ s.start_time.dateOrdinal ∧
                  s.start_time.dateOrdinal ≤ today)).filter
                (fun s => s.start_time.dateOrdinal = today - pyWeekday today + i)).length : Int),
              (((S.filter (fun s =>
                today - pyWeekday today ≤ s.start_time.dateOrdinal ∧
                  s.start_time.dateOrdinal ≤ today)).filter
                (fun s => s.start_time.dateOrdinal = today - pyWeekday today + i)).countP
                  (·.completed) : Int)))))) := by
  rw [calculate_weekly_stats]
  simp only [hSE, Bool.false_eq_true, if_false]
  simp [statGet]

/-- C4 (amended): on empty input `calculate_weekly_stats` returns
`create_empty_stats`, the four-key all-zero aggregate structure without
any weekday breakdown; only for non-empty input does the result carry a
`daily_breakdown` table, and that table always lists all 7 weekday
names Monday through Sunday in order. -/
theorem claim_C4_weekly_stats :
    (∀ today, calculate_weekly_stats today [] = create_empty_stats) ∧
    create_empty_stats
      = [("total_sessions", .int 0), ("completed_sessions", .int 0),
         ("total_focus_minutes", .int 0), ("completion_rate", .rat 0)] ∧
    (∀ today S, S ≠ [] → 1 ≤ today →
      (statGet (calculate_weekly_stats today S) "daily_breakdown").map
          (fun v => match v with | StatValue.table B => B.map Prod.fst | _ => [])
        = some ["Monday", "Tuesday", "Wednesday", "Thursday", "Friday", "Saturday",
            "Sunday"]) := by
  refine ⟨fun today => rfl, rfl, ?_⟩
  intro today S hS htoday
  have hSE : S.isEmpty = false := by
    cases S with
    | nil => exact absurd rfl hS
    | cons a t => rfl
  rw [weekly_breakdown_get today S hSE]
  simp only [Option.map_some']
  show some ((List.range 7).map _ |>.map Prod.fst) = _
  rw [List.map_map]
  exact congrArg some (breakdown_names today htoday)

set_option maxRecDepth 100000 in
/-- C4 witness: the empty-input all-zero structure and a non-empty
input whose breakdown lists all 7 weekday names. -/
theorem claim_C4_witness :
    calculate_weekly_stats (toOrdinal 2026 10 14) [] = create_empty_stats ∧
    (statGet (calculate_weekly_stats (toOrdinal 2026 10 14) [exSession]) "daily_breakdown").map
        (fun v => match v with | StatValue.table B => B.map Prod.fst | _ => [])
      = some ["Monday", "Tuesday", "Wednesday", "Thursday", "Friday", "Saturday",
          "Sunday"] := by
  exact ⟨claim_C4_weekly_stats.1 (toOrdinal 2026 10 14),
    claim_C4_weekly_stats.2.2 (toOrdinal 2026 10 14) [exSession] (by decide) (by decide)⟩

/-- The exact percent change `get_productivity_trends` computes when
last week has completed sessions. -/
def trendChange (today : Nat) (S : List PomodoroSession) : ℚ :=
  (((thisWeek today S).countP (·.completed) : ℚ)
      - ((lastWeek today S).countP (·.completed) : ℚ))
    / ((lastWeek today S).countP (·.completed) : ℚ) * 100

/-- C5: with at least two recent sessions and a positive last-week
completed count, the percent change is
`(this_week - last_week) / last_week * 100` (reported rounded to one
decimal), and the trend label is `improving` exactly above +10,
`declining` exactly below −10, and `stable` everywhere in between,
the boundary values ±10 included. -/
theorem claim_C5_trend_thresholds (today : Nat) (S : List PomodoroSession)
    (h2 : 2 ≤ (recentSessions today S).length)
    (hlw : 0 < (lastWeek today S).countP (·.completed)) :
    (get_productivity_trends today S).change = pyRound1 (trendChange today S) ∧
    (trendChange today S > 10 → (get_productivity_trends today S).trend = "improving") ∧
    (trendChange today S < -10 → (get_productivity_trends today S).trend = "declining") ∧
    (-10 ≤ trendChange today S → trendChange today S ≤ 10 →
      (get_productivity_trends today S).trend = "stable") := by
  have hSE : S.isEmpty = false := by
    cases S with
    | nil => simp [recentSessions] at h2
    | cons a t => rfl
  rw [get_productivity_trends]
  simp only [hSE, Bool.false_eq_true, if_false]
  rw [if_neg (by omega)]
  rw [if_neg (by omega)]
  by_cases hgt : trendChange today S > 10
  · rw [if_pos (by exact hgt)]
    exact ⟨rfl, fun _ => rfl, fun hlt => absurd hlt (by linarith), fun _ hle => absurd hgt
      (by linarith)⟩
  · rw [if_neg (by exact hgt)]
    by_cases hlt : trendChange today S < -10
    · rw [if_pos (by exact hlt)]
      exact ⟨rfl, fun hgt2 => absurd hgt2 hgt, fun _ => rfl,
        fun hge _ => absurd hlt (by linarith)⟩
    · rw [if_neg (by exact hlt)]
      exact ⟨rfl, fun hgt2 => absurd hgt2 hgt, fun hlt2 => absurd hlt2 hlt, fun _ _ => rfl⟩

/-- A bare completed work session on the given date, for trend
instances. -/
def trendSession (t : DateTime) : PomodoroSession :=
  { session_id := "t", session_type := "work", duration_minutes := 25,
    task_description := "", start_time := t, end_time := some t,
    completed := true, interruptions := 0 }

/-- Sessions giving last-week-completed = 4 and this-week-completed = 1
relative to today = 2024-03-20. -/
def trendS1 : List PomodoroSession :=
  [trendSession ⟨2024, 3, 10, 9, 0, 0, 0, some 0⟩,
   trendSession ⟨2024, 3, 10, 10, 0, 0, 0, some 0⟩,
   trendSession ⟨2024, 3, 11, 9, 0, 0, 0, some 0⟩,
   trendSession ⟨2024, 3, 11, 10, 0, 0, 0, some 0⟩,
   trendSession ⟨2024, 3, 15, 9, 0, 0, 0, some 0⟩]

/-- Sessions giving last-week-completed = 2 and this-week-completed = 4
relative to today = 2024-03-20. -/
def trendS2 : List PomodoroSession :=
  [trendSession ⟨2024, 3, 10, 9, 0, 0, 0, some 0⟩,
   trendSession ⟨2024, 3, 11, 9, 0, 0, 0, some 0⟩,
   trendSession ⟨2024, 3, 15, 9, 0, 0, 0, some 0⟩,
   trendSession ⟨2024, 3, 15, 10, 0, 0, 0, some 0⟩,
   trendSession ⟨2024, 3, 16, 9, 0, 0, 0, some 0⟩,
   trendSession ⟨2024, 3, 16, 10, 0, 0, 0, some 0⟩]

set_option maxRecDepth 100000 in
/-- C5 witness: last = 4, this = 1 gives change −75.0 and `declining`;
last = 2, this = 4 gives change +100.0 and `improving`. -/
theorem claim_C5_witness :
    2 ≤ (recentSessions (toOrdinal 2024 3 20) trendS1).length ∧
    (lastWeek (toOrdinal 2024 3 20) trendS1).countP (·.completed) = 4 ∧
    (thisWeek (toOrdinal 2024 3 20) trendS1).countP (·.completed) = 1 ∧
    (get_productivity_trends (toOrdinal 2024 3 20) trendS1).change = -75 ∧
    (get_productivity_trends (toOrdinal 2024 3 20) trendS1).trend = "declining" ∧
    (lastWeek (toOrdinal 2024 3 20) trendS2).countP (·.completed) = 2 ∧
    (thisWeek (toOrdinal 2024 3 20) trendS2).countP (·.completed) = 4 ∧
    (get_productivity_trends (toOrdinal 2024 3 20) trendS2).change = 100 ∧
    (get_productivity_trends (toOrdinal 2024 3 20) trendS2).trend = "improving" := by
  have hlw1 : (lastWeek (toOrdinal 2024 3 20) trendS1).countP (·.completed) = 4 := by decide
  have htw1 : (thisWeek (toOrdinal 2024 3 20) trendS1).countP (·.completed) = 1 := by decide
  have hlw2 : (lastWeek (toOrdinal 2024 3 20) trendS2).countP (·.completed) = 2 := by decide
  have htw2 : (thisWeek (toOrdinal 2024 3 20) trendS2).countP (·.completed) = 4 := by decide
  have hch1 : trendChange (toOrdinal 2024 3 20) trendS1 = -75 := by
    rw [trendChange, hlw1, htw1]
    norm_num
  have hch2 : trendChange (toOrdinal 2024 3 20) trendS2 = 100 := by
    rw [trendChange, hlw2, htw2]
    norm_num
  have hr1 : pyRound1 (-75 : ℚ) = -75 := by
    rw [pyRound1, roundHalfEven]
    norm_num
  have hr2 : pyRound1 (100 : ℚ) = 100 := by
    rw [pyRound1, roundHalfEven]
    norm_num
  have h1 := claim_C5_trend_thresholds (toOrdinal 2024 3 20) trendS1 (by decide) (by omega)
  have h2 := claim_C5_trend_thresholds (toOrdinal 2024 3 20) trendS2 (by decide) (by omega)
  refine ⟨by decide, hlw1, htw1, ?_, ?_, hlw2, htw2, ?_, ?_⟩
  · rw [h1.1, hch1, hr1]
  · exact h1.2.2.1 (by rw [hch1]; norm_num)
  · rw [h2.1, hch2, hr2]
  · exact h2.2.1 (by rw [hch2]; norm_num)

/-- The hours of completed work sessions, in input iteration order
(the histogram's domain). -/
def workHours (S : List PomodoroSession) : List Nat :=
  (S.filter (fun s => s.session_type = "work" ∧ s.completed = true)).map
    (fun s => s.start_time.hour)

/-- First-occurrence deduplication: the key order of a Python dict
built by insertion. -/
def dedupF : List Nat → List Nat
  | [] => []
  | a :: t => a :: dedupF (t.filter (· ≠ a))
  termination_by l => l.length
  decreasing_by
    have := List.length_filter_le (· ≠ a) t
    simp only [List.length_cons]
    omega

theorem dedupF_nil : dedupF [] = [] := by rw [dedupF]

theorem dedupF_cons (a : Nat) (t : List Nat) :
    dedupF (a :: t) = a :: dedupF (t.filter (· ≠ a)) := by rw [dedupF]

theorem dedupF_subset : ∀ (l : List Nat), ∀ x ∈ dedupF l, x ∈ l := by
  intro l
  generalize hn : l.length = n
  induction n using Nat.strong_induction_on generalizing l with
  | _ n ih =>
    cases l with
    | nil => intro x hx; rw [dedupF_nil] at hx; exact absurd hx (List.not_mem_nil x)
    | cons a t =>
      intro x hx
      rw [dedupF_cons] at hx
      rcases List.mem_cons.mp hx with rfl | hx2
      · exact List.mem_cons_self _ _
      · have hlt : (t.filter (· ≠ a)).length < n := by
          have := List.length_filter_le (· ≠ a) t
          simp only [List.length_cons] at hn
          omega
        have := ih _ hlt (t.filter (· ≠ a)) rfl x hx2
        exact List.mem_cons_of_mem a (List.mem_of_mem_filter this)

/-- The keys of an hour histogram, in iteration order. -/
def keysOf (m : List (Nat × Nat)) : List Nat := m.map Prod.fst

theorem keysOf_bumpHour_mem (h : Nat) :
    ∀ m : List (Nat × Nat), h ∈ keysOf m → keysOf (bumpHour m h) = keysOf m := by
  intro m
  induction m with
  | nil => intro hmem; exact absurd hmem (List.not_mem_nil h)
  | cons kv m ih =>
    intro hmem
    obtain ⟨k, v⟩ := kv
    by_cases hk : k = h
    · rw [bumpHour, if_pos hk]
      rfl
    · rw [bumpHour, if_neg hk]
      have hm : h ∈ keysOf m := by
        rcases List.mem_cons.mp hmem with heq | hm
        · exact absurd heq.symm hk
        · exact hm
      show k :: keysOf (bumpHour m h) = k :: keysOf m
      rw [ih hm]

theorem bumpHour_not_mem (h : Nat) :
    ∀ m : List (Nat × Nat), h ∉ keysOf m → bumpHour m h = m ++ [(h, 1)] := by
  intro m
  induction m with
  | nil => intro _; rfl
  | cons kv m ih =>
    intro hmem
    obtain ⟨k, v⟩ := kv
    have hk : k ≠ h := fun hc => hmem (by simp [keysOf, hc])
    rw [bumpHour, if_neg hk, List.cons_append,
      ih (fun hc => hmem (List.mem_cons_of_mem _ hc))]

theorem keysOf_append (m1 m2 : List (Nat × Nat)) :
    keysOf (m1 ++ m2) = keysOf m1 ++ keysOf m2 := List.map_append _ _ _

theorem nodup_keysOf_bumpHour (h : Nat) (m : List (Nat × Nat))
    (hnd : (keysOf m).Nodup) : (keysOf (bumpHour m h)).Nodup := by
  by_cases hmem : h ∈ keysOf m
  · rw [keysOf_bumpHour_mem h m hmem]; exact hnd
  · rw [bumpHour_not_mem h m hmem, keysOf_append]
    refine List.Nodup.append hnd (List.nodup_singleton _) ?_
    intro a ha hb
    simp only [keysOf, List.map_cons, List.map_nil, List.mem_singleton] at hb
    exact hmem (hb ▸ ha)

theorem map_bumpHour_mem (t : List Nat) (h : Nat) :
    ∀ m : List (Nat × Nat), (keysOf m).Nodup → h ∈ keysOf m →
      (bumpHour m h).map (fun kv => (kv.1, kv.2 + t.count kv.1))
        = m.map (fun kv => (kv.1, kv.2 + (h :: t).count kv.1)) := by
  intro m
  induction m with
  | nil => intro _ hmem; exact absurd hmem (List.not_mem_nil h)
  | cons kv m ih =>
    intro hnd hmem
    obtain ⟨k, v⟩ := kv
    have hnd' : (keysOf m).Nodup := by
      simp only [keysOf, List.map_cons, List.nodup_cons] at hnd
      exact hnd.2
    have hknotin : k ∉ keysOf m := by
      simp only [keysOf, List.map_cons, List.nodup_cons] at hnd
      exact hnd.1
    by_cases hk : k = h
    · subst hk
      rw [bumpHour, if_pos rfl]
      simp only [List.map_cons, List.cons_eq_cons]
      refine ⟨?_, ?_⟩
      · simp only [List.count_cons_self, Prod.mk.injEq, true_and]
        omega
      · apply List.map_congr_left
        intro kv2 hkv2
        have hne : kv2.1 ≠ k := by
          intro hc
          exact hknotin (hc ▸ List.mem_map_of_mem Prod.fst hkv2)
        show (kv2.1, kv2.2 + t.count kv2.1) = (kv2.1, kv2.2 + (k :: t).count kv2.1)
        rw [List.count_cons_of_ne hne]
    · have hm : h ∈ keysOf m := by
        rcases List.mem_cons.mp hmem with heq | hm2
        · exact absurd heq.symm hk
        · exact hm2
      rw [bumpHour, if_neg hk]
      simp only [List.map_cons]
      rw [ih hnd' hm, List.cons_eq_cons]
      refine ⟨?_, rfl⟩
      show (k, v + t.count k) = (k, v + (h :: t).count k)
      rw [List.count_cons_of_ne hk]

/-- The value of a histogram after folding a list of hours into it:
present keys get their occurrence count added, fresh keys are appended
in first-occurrence order with their counts. -/
def mergeCounts (m : List (Nat × Nat)) (hs : List Nat) : List (Nat × Nat) :=
  m.map (fun kv => (kv.1, kv.2 + hs.count kv.1))
    ++ (dedupF (hs.filter (fun x => x ∉ keysOf m))).map (fun k => (k, hs.count k))

theorem mergeCounts_bump (h : Nat) (t : List Nat) (m : List (Nat × Nat))
    (hnd : (keysOf m).Nodup) :
    mergeCounts (bumpHour m h) t = mergeCounts m (h :: t) := by
  by_cases hm : h ∈ keysOf m
  · simp only [mergeCounts]
    rw [keysOf_bumpHour_mem h m hm, map_bumpHour_mem t h m hnd hm]
    have hfilter : (h :: t).filter (fun x => x ∉ keysOf m)
        = t.filter (fun x => x ∉ keysOf m) := by
      simp [List.filter_cons, hm]
    rw [hfilter]
    congr 1
    apply List.map_congr_left
    intro k hk
    have hkmem : k ∈ t.filter (fun x => x ∉ keysOf m) := dedupF_subset _ k hk
    have hknot : k ∉ keysOf m := by
      have := List.of_mem_filter hkmem
      simpa using this
    have hkh : k ≠ h := fun hc => hknot (hc ▸ hm)
    show (k, t.count k) = (k, (h :: t).count k)
    rw [List.count_cons_of_ne hkh]
  · simp only [mergeCounts]
    rw [bumpHour_not_mem h m hm]
    have hkeys : keysOf (m ++ [(h, 1)]) = keysOf m ++ [h] := by
      rw [keysOf_append]
      rfl
    rw [hkeys]
    have hfsplit : t.filter (fun x => x ∉ keysOf m ++ [h])
        = (t.filter (fun x => x ∉ keysOf m)).filter (· ≠ h) := by
      rw [List.filter_filter]
      apply List.filter_congr
      intro x hx
      by_cases h1 : x = h <;> by_cases h2 : x ∈ keysOf m <;>
        simp [h1, h2, List.mem_append]
    have hfcons : (h :: t).filter (fun x => x ∉ keysOf m)
        = h :: t.filter (fun x => x ∉ keysOf m) := by
      simp [List.filter_cons, hm]
    rw [hfsplit, hfcons, dedupF_cons, List.map_append, List.map_cons, List.append_assoc]
    have h1 : m.map (fun kv => (kv.1, kv.2 + t.count kv.1))
        = m.map (fun kv => (kv.1, kv.2 + (h :: t).count kv.1)) := by
      apply List.map_congr_left
      intro kv hkv
      have hne : kv.1 ≠ h := fun hc => hm (hc ▸ List.mem_map_of_mem Prod.fst hkv)
      show (kv.1, kv.2 + t.count kv.1) = (kv.1, kv.2 + (h :: t).count kv.1)
      rw [List.count_cons_of_ne hne]
    have h3 : (dedupF ((t.filter (fun x => x ∉ keysOf m)).filter (· ≠ h))).map
          (fun k => (k, t.count k))
        = (dedupF ((t.filter (fun x => x ∉ keysOf m)).filter (· ≠ h))).map
          (fun k => (k, (h :: t).count k)) := by
      apply List.map_congr_left
      intro k hk
      have hkm := dedupF_subset _ k hk
      have hne : k ≠ h := by
        have := List.of_mem_filter hkm
        simpa using this
      show (k, t.count k) = (k, (h :: t).count k)
      rw [List.count_cons_of_ne hne]
    rw [h1, h3]
    simp only [List.map_cons, List.map_nil, List.singleton_append]
    rw [List.count_cons_self, Nat.add_comm 1 (t.count h)]

theorem foldl_bumpHour_eq : ∀ (hs : List Nat) (m : List (Nat × Nat)),
    (keysOf m).Nodup → hs.foldl bumpHour m = mergeCounts m hs := by
  intro hs
  induction hs with
  | nil =>
    intro m _
    simp only [List.foldl_nil, mergeCounts, List.count_nil, List.filter_nil, dedupF_nil,
      List.map_nil, List.append_nil, Nat.add_zero]
    simp
  | cons h t ih =>
    intro m hnd
    rw [List.foldl_cons, ih (bumpHour m h) (nodup_keysOf_bumpHour h m hnd),
      mergeCounts_bump h t m hnd]

theorem foldl_step_eq : ∀ (S : List PomodoroSession) (m : List (Nat × Nat)),
    S.foldl (fun m s => if s.session_type = "work" ∧ s.completed = true
        then bumpHour m s.start_time.hour else m) m
      = (workHours S).foldl bumpHour m := by
  intro S
  induction S with
  | nil => intro m; rfl
  | cons s S ih =>
    intro m
    rw [List.foldl_cons]
    by_cases hp : s.session_type = "work" ∧ s.completed = true
    · rw [if_pos hp]
      have hw : workHours (s :: S) = s.start_time.hour :: workHours S := by
        simp [workHours, List.filter_cons, hp]
      rw [hw, List.foldl_cons, ih]
    · rw [if_neg hp]
      have hw : workHours (s :: S) = workHours S := by
        simp [workHours, List.filter_cons, hp]
      rw [hw, ih]

/-- The canonical form of the histogram: its keys are the hours of
completed work sessions in first-occurrence order, each mapped to its
number of occurrences. -/
theorem hourlyCounts_eq (S : List PomodoroSession) :
    hourlyCounts S
      = (dedupF (workHours S)).map (fun k => (k, (workHours S).count k)) := by
  have h1 : hourlyCounts S = (workHours S).foldl bumpHour [] := foldl_step_eq S []
  rw [h1, foldl_bumpHour_eq (workHours S) [] (by simp [keysOf])]
  simp only [mergeCounts, List.map_nil, List.nil_append]
  have hall : (workHours S).filter (fun x => x ∉ keysOf ([] : List (Nat × Nat)))
      = workHours S := by
    apply List.filter_eq_self.mpr
    intro a _
    simp [keysOf]
  rw [hall]

theorem mem_dedupF : ∀ (l : List Nat), ∀ x ∈ l, x ∈ dedupF l := by
  intro l
  generalize hn : l.length = n
  induction n using Nat.strong_induction_on generalizing l with
  | _ n ih =>
    cases l with
    | nil => intro x hx; exact absurd hx (List.not_mem_nil x)
    | cons a t =>
      intro x hx
      rw [dedupF_cons]
      by_cases hax : x = a
      · exact hax ▸ List.mem_cons_self _ _
      · have hxt : x ∈ t := by
          rcases List.mem_cons.mp hx with h | h
          · exact absurd h hax
          · exact h
        have hxf : x ∈ t.filter (· ≠ a) := List.mem_filter.mpr ⟨hxt, by simpa using hax⟩
        have hlt : (t.filter (· ≠ a)).length < n := by
          have := List.length_filter_le (· ≠ a) t
          simp only [List.length_cons] at hn
          omega
        exact List.mem_cons_of_mem a (ih _ hlt _ rfl x hxf)

theorem dedupF_append : ∀ (xs ys : List Nat),
    dedupF (xs ++ ys) = dedupF xs ++ dedupF (ys.filter (fun y => y ∉ xs)) := by
  intro xs
  generalize hn : xs.length = n
  induction n using Nat.strong_induction_on generalizing xs with
  | _ n ih =>
    cases xs with
    | nil =>
      intro ys
      rw [List.nil_append, dedupF_nil, List.nil_append]
      have : ys.filter (fun y => y ∉ ([] : List Nat)) = ys := by
        apply List.filter_eq_self.mpr
        intro a _
        simp
      rw [this]
    | cons a t =>
      intro ys
      rw [List.cons_append, dedupF_cons, dedupF_cons, List.filter_append]
      have hlt : (t.filter (· ≠ a)).length < n := by
        have := List.length_filter_le (· ≠ a) t
        simp only [List.length_cons] at hn
        omega
      rw [ih _ hlt _ rfl (ys.filter (· ≠ a))]
      have hff : (ys.filter (· ≠ a)).filter (fun y => y ∉ t.filter (· ≠ a))
          = ys.filter (fun y => y ∉ a :: t) := by
        rw [List.filter_filter]
        apply List.filter_congr
        intro y hy
        by_cases h1 : y = a <;> by_cases h2 : y ∈ t <;>
          simp [h1, h2, List.mem_filter]
      rw [hff, List.cons_append]

theorem lookupHour_map_count (W : List Nat) (h : Nat) :
    ∀ (d : List Nat), h ∈ d →
      lookupHour (d.map (fun k => (k, W.count k))) h = some (W.count h) := by
  intro d
  induction d with
  | nil => intro hmem; exact absurd hmem (List.not_mem_nil h)
  | cons a t ih =>
    intro hmem
    simp only [List.map_cons, lookupHour]
    by_cases ha : a = h
    · rw [if_pos ha, ha]
    · rw [if_neg ha]
      have : h ∈ t := by
        rcases List.mem_cons.mp hmem with heq | hmem2
        · exact absurd heq.symm ha
        · exact hmem2
      exact ih this

theorem foldl_pyMaxStep_le (b : Nat × Nat) :
    ∀ (t : List (Nat × Nat)), (∀ kv ∈ t, kv.2 ≤ b.2) → t.foldl pyMaxStep b = b := by
  intro t
  induction t with
  | nil => intro _; rfl
  | cons y t ih =>
    intro hle
    rw [List.foldl_cons]
    have hy : pyMaxStep b y = b := by
      rw [pyMaxStep, if_neg]
      exact Nat.not_lt.mpr (hle y (List.mem_cons_self _ _))
    rw [hy]
    exact ih (fun kv hkv => hle kv (List.mem_cons_of_mem _ hkv))

theorem foldl_pyMaxStep_mem : ∀ (t : List (Nat × Nat)) (b : Nat × Nat),
    t.foldl pyMaxStep b ∈ b :: t := by
  intro t
  induction t with
  | nil => intro b; exact List.mem_cons_self _ _
  | cons y t ih =>
    intro b
    rw [List.foldl_cons]
    have := ih (pyMaxStep b y)
    rcases List.mem_cons.mp this with heq | hmem
    · rw [heq, pyMaxStep]
      by_cases hc : y.2 > b.2
      · rw [if_pos hc]
        exact List.mem_cons_of_mem _ (List.mem_cons_self _ _)
      · rw [if_neg hc]
        exact List.mem_cons_self _ _
    · exact List.mem_cons_of_mem _ (List.mem_cons_of_mem _ hmem)

/-- `max` over a nonempty association list returns the first entry of
maximum value: entries before it are strictly smaller, entries after it
are no larger. -/
theorem pyMaxByVal_firstMax (l1 l2 : List (Nat × Nat)) (h v : Nat)
    (hlt : ∀ kv ∈ l1, kv.2 < v) (hle : ∀ kv ∈ l2, kv.2 ≤ v) :
    pyMaxByVal (l1 ++ (h, v) :: l2) = some (h, v) := by
  cases l1 with
  | nil =>
    rw [List.nil_append, pyMaxByVal]
    rw [foldl_pyMaxStep_le (h, v) l2 hle]
  | cons x t1 =>
    rw [List.cons_append, pyMaxByVal, List.foldl_append, List.foldl_cons]
    have hbm := foldl_pyMaxStep_mem t1 x
    have hblt : (t1.foldl pyMaxStep x).2 < v := hlt _ hbm
    have hstep : pyMaxStep (t1.foldl pyMaxStep x) (h, v) = (h, v) := by
      rw [pyMaxStep, if_pos hblt]
    rw [hstep, foldl_pyMaxStep_le (h, v) l2 hle]

/-- C8: `get_peak_productivity_hours` builds its hour histogram over
completed work-type sessions only — the histogram's keys are exactly the
start hours of completed work sessions in first-occurrence order, each
mapped to its occurrence count; when no session qualifies (including
empty input) it returns `peak_hour = none` and `sessions_count = 0`; and
the reported peak is the hour of maximum count with ties broken in favor
of the first hour encountered in iteration order: whenever the hour list
splits as `pre ++ h :: post` with every hour of `pre` of strictly
smaller count and no hour of larger count, the result reports `h` and
its count. -/
theorem claim_C8_peak_hours (S : List PomodoroSession) :
    (hourlyCounts S
        = (dedupF (workHours S)).map (fun k => (k, (workHours S).count k)))
    ∧ (workHours S = [] → get_peak_productivity_hours S = ⟨none, 0, []⟩)
    ∧ (∀ pre h post,
        workHours S = pre ++ h :: post →
        (∀ x ∈ pre, (workHours S).count x < (workHours S).count h) →
        (∀ x ∈ workHours S, (workHours S).count x ≤ (workHours S).count h) →
        (get_peak_productivity_hours S).peak_hour = some h
          ∧ (get_peak_productivity_hours S).sessions_count = (workHours S).count h
          ∧ (get_peak_productivity_hours S).hourly_distribution = hourlyCounts S) := by
  refine ⟨hourlyCounts_eq S, ?_, ?_⟩
  · intro hW
    cases S with
    | nil => rfl
    | cons s S' =>
      have hc : hourlyCounts (s :: S') = [] := by
        rw [hourlyCounts_eq, hW, dedupF_nil]
        rfl
      simp [get_peak_productivity_hours, hc, pyMaxByVal]
  · intro pre h post hdecomp hlt hle
    obtain ⟨W, hWdef⟩ : ∃ W, workHours S = W := ⟨_, rfl⟩
    rw [hWdef] at hdecomp hlt hle ⊢
    have hcounts : hourlyCounts S = (dedupF W).map (fun k => (k, W.count k)) := by
      rw [hourlyCounts_eq, hWdef]
    have hnp : h ∉ pre := fun hc => absurd (hlt h hc) (lt_irrefl _)
    have hS : S ≠ [] := by
      intro hc
      have hnil : ([] : List Nat) = pre ++ h :: post := by
        rw [← hdecomp, ← hWdef, hc]
        rfl
      exact absurd hnil.symm (by simp)
    have hEm : S.isEmpty = false := by
      cases S with
      | nil => exact absurd rfl hS
      | cons a b => rfl
    have hfil : (h :: post).filter (fun y => y ∉ pre)
        = h :: post.filter (fun y => y ∉ pre) := by
      simp [List.filter_cons, hnp]
    have hded : dedupF W
        = dedupF pre
          ++ h :: dedupF ((post.filter (fun y => y ∉ pre)).filter (· ≠ h)) := by
      rw [hdecomp, dedupF_append, hfil, dedupF_cons]
    have hmap : (dedupF W).map (fun k => (k, W.count k))
        = (dedupF pre).map (fun k => (k, W.count k))
          ++ (h, W.count h)
            :: (dedupF ((post.filter (fun y => y ∉ pre)).filter (· ≠ h))).map
                (fun k => (k, W.count k)) := by
      rw [hded, List.map_append, List.map_cons]
    have hl1 : ∀ kv ∈ (dedupF pre).map (fun k => (k, W.count k)),
        kv.2 < W.count h := by
      intro kv hkv
      rcases List.mem_map.mp hkv with ⟨k, hk, rfl⟩
      exact hlt k (dedupF_subset pre k hk)
    have hl2 : ∀ kv ∈ (dedupF ((post.filter (fun y => y ∉ pre)).filter (· ≠ h))).map
          (fun k => (k, W.count k)), kv.2 ≤ W.count h := by
      intro kv hkv
      rcases List.mem_map.mp hkv with ⟨k, hk, rfl⟩
      have hk1 := dedupF_subset _ k hk
      have hk2 : k ∈ post :=
        List.mem_of_mem_filter (List.mem_of_mem_filter hk1)
      have hkW : k ∈ W := by
        rw [hdecomp]
        exact List.mem_append_right _ (List.mem_cons_of_mem _ hk2)
      exact hle k hkW
    have hmax : pyMaxByVal ((dedupF W).map (fun k => (k, W.count k)))
        = some (h, W.count h) := by
      rw [hmap]
      exact pyMaxByVal_firstMax _ _ h (W.count h) hl1 hl2
    have hhW : h ∈ W := by
      rw [hdecomp]
      exact List.mem_append_right _ (List.mem_cons_self _ _)
    have hlook : lookupHour ((dedupF W).map (fun k => (k, W.count k))) h
        = some (W.count h) :=
      lookupHour_map_count W h (dedupF W) (mem_dedupF W h hhW)
    have hres : get_peak_productivity_hours S = ⟨some h, W.count h, hourlyCounts S⟩ := by
      simp only [get_peak_productivity_hours, hEm, Bool.false_eq_true, if_false,
        hcounts, hmax, hlook, Option.getD_some]
    rw [hres, hcounts]
    exact ⟨rfl, rfl, rfl⟩

/-- A completed work session starting at hour `h`. -/
def peakW (h : Nat) : PomodoroSession :=
  { session_id := "w"
    session_type := "work"
    duration_minutes := 25
    task_description := ""
    start_time := ⟨2026, 10, 12, h, 0, 0, 0, some 0⟩
    end_time := some ⟨2026, 10, 12, h, 25, 0, 0, some 0⟩
    completed := true
    interruptions := 0 }

/-- Sessions with tied top hours 9 and 14 (two completed work sessions
each) plus one non-work session; the first hour encountered wins. -/
def peakSessions : List PomodoroSession :=
  [peakW 9, peakW 14, exSession2, peakW 9, peakW 14]

set_option maxRecDepth 100000 in
theorem claim_C8_witness :
    workHours peakSessions = [] ++ 9 :: [14, 9, 14]
      ∧ (get_peak_productivity_hours peakSessions).peak_hour = some 9
      ∧ (get_peak_productivity_hours peakSessions).sessions_count = 2 := by
  refine ⟨by decide, ?_, ?_⟩
  · exact ((claim_C8_peak_hours peakSessions).2.2 [] 9 [14, 9, 14] (by decide)
      (by decide) (by decide)).1
  · have hcnt := ((claim_C8_peak_hours peakSessions).2.2 [] 9 [14, 9, 14] (by decide)
      (by decide) (by decide)).2.1
    rw [hcnt]
    decide
